import Mathlib

/-!
# DependenciesAnalyser: a shallow embedding of `src/Analyser.cpp`

The development follows the source file from the leaves up:

* `Path`: the part of `std::filesystem::path` the analyser uses (POSIX generic format: an
  optional root directory followed by file names; no root name, no trailing separator);
* `FileSystem`: what the analyser observes of the disk (`is_regular_file`, the bytes an
  `ifstream` delivers, the entries of `recursive_directory_iterator`);
* `getIncludes`: the two regular expressions, transcribed as scanners over the character list;
* `findIncludeParentPath`, the static `printDependencyTree` (the Dependency Walker) and the
  member `printDependencyTree` (the run over all roots).

The walker is recursive without a syntactic bound, so it takes a fuel argument: `none` means
the fuel ran out, never that the program returned.
-/

namespace tdw

/-! ## Paths -/

/-- A `std::filesystem::path` in decomposed form: whether it has a root directory, and its
file names in order. Two paths are equal exactly when `path::compare` returns 0, that is when
they have the same elements; nothing is normalised, so `sub/../sub` and `sub` differ. -/
structure Path where
  rooted : Bool
  names : List String
deriving DecidableEq, Repr

namespace Path

/-- The default-constructed path `path_type()`. -/
def empty : Path := ⟨false, []⟩

/-- Member `path::empty()`. -/
def isEmpty (p : Path) : Bool := !p.rooted && p.names.isEmpty

/-- Member `path::is_relative()` (POSIX: no root directory). -/
def isRelative (p : Path) : Bool := !p.rooted

/-- The `operator/`: an absolute right operand replaces the left one, a relative one is
appended to it. (The right operand is never empty in the analyser.) -/
def join (p q : Path) : Path :=
  if q.rooted then q else ⟨p.rooted, p.names ++ q.names⟩

/-- Member `path::parent_path()`: the path without its last file name; the root directory and
the empty path are their own parents. -/
def parentPath (p : Path) : Path := ⟨p.rooted, p.names.dropLast⟩

/-- The pieces of a path text between separators (empty pieces included). -/
def pieces : List Char → List (List Char)
  | [] => [[]]
  | c :: cs =>
    if c = '/' then [] :: pieces cs
    else
      match pieces cs with
      | [] => [[c]]
      | p :: ps => (c :: p) :: ps

/-- The constructor `path(string)`: a leading separator is the root directory, runs of
separators count once. -/
def ofChars (cs : List Char) : Path :=
  ⟨cs.head? == some '/', ((pieces cs).filter (fun p => !p.isEmpty)).map String.mk⟩

/-- The result of `std::filesystem::relative(p, base)` for a path `p` that lies below the
canonical directory `base`: the file names of `p` after those of `base`. -/
def relativeTo (p base : Path) : Path := ⟨false, p.names.drop base.names.length⟩

/-- The suffix of a file name that starts at its rightmost period, if it has one. -/
def lastDot : List Char → Option (List Char)
  | [] => none
  | c :: cs =>
    match lastDot cs with
    | some e => some e
    | none => if c = '.' then some (c :: cs) else none

/-- Member `path::extension()` applied to a file name: from the rightmost period on, where a
period in first position does not count and `.` and `..` have no extension. -/
def extensionOf (name : List Char) : List Char :=
  match name with
  | [] => []
  | _ :: cs => if name = ['.', '.'] then [] else (lastDot cs).getD []

/-- Member `path::extension()`: the extension of the last file name. -/
def extension (p : Path) : List Char :=
  match p.names.getLast? with
  | none => []
  | some n => extensionOf n.data

end Path

/-! ## Inclusion references and the observed file system -/

/-- The tag `Include::Type`: `q_char` for a quoted name, `h_char` for an angled one. -/
inductive IncludeType where
  | q_char
  | h_char
deriving DecidableEq, Repr

/-- The struct `Include`: the referenced path and its delimiter kind. -/
structure Include where
  path : Path
  type : IncludeType
deriving DecidableEq, Repr

/-- What the analyser observes of the disk. `isRegularFile p` is the answer of
`is_regular_file(p)` (status queries are taken to succeed). `fileData p` is the content an
`ifstream` opened on `p` delivers, `none` when opening fails (the stream then throws, `failbit`
being enabled). `entries d` lists what `recursive_directory_iterator(d)` yields. -/
structure FileSystem where
  isRegularFile : Path → Bool
  fileData : Path → Option (List Char)
  entries : Path → List Path

/-! ## Reading a file: `getIncludes` -/

/-- The character `"`. -/
def dquote : Char := Char.ofNat 34

/-- The character `\`. -/
def backslash : Char := Char.ofNat 92

/-- What the atom `.` matches: any character but a line terminator. -/
def isDot (c : Char) : Bool := c != Char.ofNat 10 && c != Char.ofNat 13

/-- The class `[^\S\r\n]`: white space other than CR and LF. -/
def isHSpace (c : Char) : Bool :=
  c == ' ' || c == Char.ofNat 9 || c == Char.ofNat 11 || c == Char.ofNat 12

/-- The class `[\w.\/\\]`. -/
def isNameChar (c : Char) : Bool :=
  c.isAlphanum || c == '_' || c == '.' || c == '/' || c == backslash

/-- Whether the text begins with the literal `lit`. -/
def startsWith : List Char → List Char → Bool
  | _, [] => true
  | [], _ :: _ => false
  | c :: cs, l :: ls => c == l && startsWith cs ls

/-- The ways `(.*)\(` can match at the text after `R"`, in the order a backtracking matcher
tries them (longest delimiter first): the delimiter and the text after the parenthesis. -/
def rawOpeners : List Char → List (List Char × List Char)
  | [] => []
  | c :: cs =>
    let longer := if isDot c then (rawOpeners cs).map (fun o => (c :: o.1, o.2)) else []
    if c = '(' then longer ++ [([], cs)] else longer

/-- The number of characters `[\s\S\n]*?\)\2"` consumes with `\2 = d`: up to and including the
first occurrence of `)d"`. -/
def rawClose (d : List Char) : List Char → Option Nat
  | [] => none
  | c :: cs =>
    if startsWith (c :: cs) (')' :: (d ++ [dquote])) then some (d.length + 2)
    else (rawClose d cs).map (· + 1)

/-- The first alternative `R"(.*)\([\s\S\n]*?\)\2"` over the candidate openers: the length of
the match, counted from the `R`. -/
def rawTerminated : List (List Char × List Char) → Option Nat
  | [] => none
  | o :: more =>
    match rawClose o.1 o.2 with
    | some n => some (2 + o.1.length + 1 + n)
    | none => rawTerminated more

/-- The number of characters `[\s\S\n]*?\*\/` consumes: up to and including the first `*/`. -/
def blockClose : List Char → Option Nat
  | [] => none
  | c :: cs =>
    if startsWith (c :: cs) ['*', '/'] then some 2
    else (blockClose cs).map (· + 1)

/-- The length of the match of `noiseRegex` that starts at the head of the text, if there is
one. The alternatives are tried in the order of the pattern: a terminated raw string, a raw
string running to the end of the text, a terminated block comment, a block comment running to
the end of the text. -/
def noiseMatch (text : List Char) : Option Nat :=
  match text with
  | 'R' :: q :: rest =>
    if q = dquote then
      match rawTerminated (rawOpeners rest) with
      | some n => some n
      | none => if (rawOpeners rest).isEmpty then none else some text.length
    else none
  | '/' :: '*' :: rest =>
    match blockClose rest with
    | some n => some (2 + n)
    | none => some text.length
  | _ => none

/-- The call `std::regex_replace(fileData, noiseRegex, "")`: scanning from the left, every
match is dropped and every other character copied; `skip` counts the characters of the
current match still to drop. -/
def stripNoise : List Char → Nat → List Char
  | [], _ => []
  | _ :: cs, skip + 1 => stripNoise cs skip
  | c :: cs, 0 =>
    match noiseMatch (c :: cs) with
    | some n => stripNoise cs (n - 1)
    | none => c :: stripNoise cs 0

/-- The file name between the delimiters: the run `[\w.\/\\]+` followed by `close`, ending in
`.hpp` or `.cpp` with at least one character before the extension. Gives the name and the
number of characters consumed, closing delimiter included. -/
def matchName (close : Char) (text : List Char) : Option (List Char × Nat) :=
  let name := text.takeWhile isNameChar
  let ext := name.drop (name.length - 4)
  if (text.drop name.length).head? = some close ∧ 5 ≤ name.length ∧
      (ext = ['.', 'h', 'p', 'p'] ∨ ext = ['.', 'c', 'p', 'p']) then
    some (name, name.length + 1)
  else none

/-- The part of `includeRegex` after `(?:^|\n)`, matched at the head of the text: the
reference and the number of characters consumed. -/
def matchDirective (text : List Char) : Option (Include × Nat) :=
  let s1 := text.takeWhile isHSpace
  match text.drop s1.length with
  | '#' :: t1 =>
    let s2 := t1.takeWhile isHSpace
    let t2 := t1.drop s2.length
    if startsWith t2 ['i', 'n', 'c', 'l', 'u', 'd', 'e'] then
      let t3 := t2.drop 7
      let s3 := t3.takeWhile isHSpace
      let used := s1.length + 1 + s2.length + 7 + s3.length
      match t3.drop s3.length with
      | [] => none
      | o :: t4 =>
        if o = dquote then
          (matchName dquote t4).map
            (fun m => (⟨Path.ofChars m.1, IncludeType.q_char⟩, used + 1 + m.2))
        else if o = '<' then
          (matchName '>' t4).map
            (fun m => (⟨Path.ofChars m.1, IncludeType.h_char⟩, used + 1 + m.2))
        else none
    else none
  | _ => none

/-- The match of `includeRegex` that starts at the head of the text: `^` matches only at the
very beginning of the sanitized text, otherwise the match begins with a line feed. -/
def includeMatch (atStart : Bool) (text : List Char) : Option (Include × Nat) :=
  match (if atStart then matchDirective text else none) with
  | some m => some m
  | none =>
    match text with
    | [] => none
    | c :: cs =>
      if c = Char.ofNat 10 then (matchDirective cs).map (fun m => (m.1, m.2 + 1)) else none

/-- The `sregex_iterator` loop of `getIncludes` (lines 28-41): the references of all matches,
in order of appearance; `skip` counts the characters of the current match still to pass. -/
def scanIncludes : List Char → Bool → Nat → List Include
  | [], _, _ => []
  | _ :: cs, _, skip + 1 => scanIncludes cs false skip
  | c :: cs, atStart, 0 =>
    match includeMatch atStart (c :: cs) with
    | some m => m.1 :: scanIncludes cs false (m.2 - 1)
    | none => scanIncludes cs false 0

namespace Analyser

/-- The function `getIncludes` on the content of a file. -/
def includesOfText (fileData : List Char) : List Include :=
  scanIncludes (stripNoise fileData 0) true 0

/-- The function `getIncludes` (lines 10-44): `none` when the file cannot be opened (the
stream throws). -/
def getIncludes (fs : FileSystem) (p : Path) : Option (List Include) :=
  (fs.fileData p).map includesOfText

/-- The loop of `findIncludeParentPath` over `_includePaths`: the first search directory that
holds the file, else `path_type()`. -/
def searchIncludePaths (fs : FileSystem) (sourcePath : Path) : List Path → Path
  | [] => Path.empty
  | includePath :: more =>
    if fs.isRegularFile (includePath.join sourcePath) then includePath
    else searchIncludePaths fs sourcePath more

/-- The function `findIncludeParentPath` (lines 82-102). -/
def findIncludeParentPath (fs : FileSystem) (sourceFile : Include) (currentPath : Path)
    (includePaths : List Path) : Path :=
  if sourceFile.type = IncludeType.q_char ∧
      fs.isRegularFile (currentPath.join sourceFile.path) = true then
    currentPath
  else
    searchIncludePaths fs sourceFile.path includePaths

end Analyser

/-! ## The Dependency Walker -/

/-- A key of `include_counter_map_type` and an element of `include_chain_set_type`: the
referenced path paired with the directory it resolved to (empty when unresolved). -/
abbrev CounterKey := Path × Path

/-- The map `include_counter_map_type` as its list of entries, one per key. The mapped
counts are natural numbers (the mapped type is declared in `Analyser.hpp`). -/
abbrev IncludeCounter := List (CounterKey × Nat)

/-- The statement `counter[key] += n`: `operator[]` creates a missing entry with value zero,
then the value grows by `n`. -/
def addAt (key : CounterKey) (n : Nat) : IncludeCounter → IncludeCounter
  | [] => [(key, n)]
  | e :: rest => if e.1 = key then (e.1, e.2 + n) :: rest else e :: addAt key n rest

/-- The entry stored under a key, if there is one. -/
def entryAt (key : CounterKey) : IncludeCounter → Option Nat
  | [] => none
  | e :: rest => if e.1 = key then some e.2 else entryAt key rest

/-- The count stored under a key, zero when the key has no entry. -/
def countAt (key : CounterKey) (counter : IncludeCounter) : Nat :=
  (entryAt key counter).getD 0

/-- One call of `printIncludeBranchRecord`: the path, depth and flags it is given, and the
parent path it is given for a path that is not relative. -/
structure BranchRecord where
  path : Path
  depth : Nat
  resolved : Bool
  cycle : Bool
  parent : Option Path
deriving DecidableEq, Repr

/-- What an invocation leaves behind besides its return value: the shared counter map, the
records printed so far, and the files whose contents `getIncludes` has read, in order. -/
structure Effects where
  includeCounter : IncludeCounter
  output : List BranchRecord
  opened : List Path
deriving DecidableEq, Repr

/-- The tree of invocations of the walker: each invocation prints one node, and its recursive
calls are its children, in order. A node keeps the reference, the directory it resolved to
and the cycle flag. -/
inductive CallTree where
  | node (sourceFile : Include) (parentPath : Path) (cycle : Bool)
      (children : List CallTree)
deriving Repr

/-- How an invocation of the walker ends: it returns `parentPath` (with the chain it was given
by reference updated), or the exception of `getIncludes` leaves it. -/
inductive Outcome where
  | returned (parentPath : Path) (includeChain : List CounterKey) (tree : CallTree)
      (st : Effects)
  | thrown (st : Effects)

/-- How the loop over the includes of a file ends. -/
inductive LoopOutcome where
  | done (trees : List CallTree) (st : Effects)
  | thrown (st : Effects)

/-- The wrap-around of `unsigned` arithmetic on `_depth`. -/
def depthModulus : Nat := 2 ^ 32

namespace Analyser

/-- The loop of lines 69-76, with the recursive call abstracted as `call`: each include is
walked, then its counter is raised under the key made of its path and the directory the call
returned. -/
def forIncludes (call : Include → Effects → Option Outcome) :
    List Include → Effects → Option LoopOutcome
  | [], st => some (LoopOutcome.done [] st)
  | inc :: more, st =>
    match call inc st with
    | none => none
    | some (Outcome.thrown st1) => some (LoopOutcome.thrown st1)
    | some (Outcome.returned includeParentPath _ tree st1) =>
      let counterKey : CounterKey := (inc.path, includeParentPath)
      let st2 := { st1 with includeCounter := addAt counterKey 1 st1.includeCounter }
      match forIncludes call more st2 with
      | none => none
      | some (LoopOutcome.thrown st3) => some (LoopOutcome.thrown st3)
      | some (LoopOutcome.done trees st3) => some (LoopOutcome.done (tree :: trees) st3)

/-- The static `printDependencyTree` (lines 46-80). The result is `none` when `fuel` nested
invocations do not suffice. -/
def printDependencyTree (fs : FileSystem) (includePaths : List Path) :
    Nat → Include → Path → List CounterKey → Nat → Effects → Option Outcome
  | 0, _, _, _, _, _ => none
  | fuel + 1, sourceFile, currentPath, includeChain, depth, st =>
    let parentPath := findIncludeParentPath fs sourceFile currentPath includePaths
    let cycleInclude := decide ((sourceFile.path, parentPath) ∈ includeChain)
    let includeChain1 :=
      if cycleInclude then includeChain else (sourceFile.path, parentPath) :: includeChain
    let record : BranchRecord :=
      ⟨sourceFile.path, depth, !parentPath.isEmpty, cycleInclude,
        if sourceFile.path.isRelative then none else some parentPath⟩
    let st1 := { st with output := st.output ++ [record] }
    if !parentPath.isEmpty && !cycleInclude then
      let filePath := parentPath.join sourceFile.path
      let directoryPath := filePath.parentPath
      match getIncludes fs filePath with
      | none => some (Outcome.thrown st1)
      | some includes =>
        let st2 := { st1 with opened := st1.opened ++ [filePath] }
        match forIncludes
            (fun inc s =>
              printDependencyTree fs includePaths fuel inc directoryPath includeChain1
                ((depth + 2) % depthModulus) s)
            includes st2 with
        | none => none
        | some (LoopOutcome.thrown st3) => some (Outcome.thrown st3)
        | some (LoopOutcome.done trees st3) =>
          some (Outcome.returned parentPath includeChain1
            (CallTree.node sourceFile parentPath cycleInclude trees) st3)
    else
      some (Outcome.returned parentPath includeChain1
        (CallTree.node sourceFile parentPath cycleInclude []) st1)

end Analyser

/-! ## The analyser object and the run over all roots -/

/-- The data members of `Analyser`: the canonical project directory and the source files found
below it, in the order the member `printDependencyTree` iterates over them. -/
structure Analyser where
  path : Path
  sourceFiles : List Include
deriving Repr

namespace Analyser

/-- The loop of the constructor (lines 113-125): every entry that is a regular file with the
extension `.hpp` or `.cpp` is kept, under the path of the entry, as a quoted reference; the
set keeps one copy of each. -/
def collectSourceFiles (fs : FileSystem) : List Path → List Include → List Include
  | [], tmp => tmp
  | entry :: more, tmp =>
    let extension := entry.extension
    let comparisonResult := extension = ".hpp".data ∨ extension = ".cpp".data
    if !fs.isRegularFile entry ∨ ¬ comparisonResult then collectSourceFiles fs more tmp
    else
      let sourceFile : Include := ⟨entry, IncludeType.q_char⟩
      collectSourceFiles fs more (if sourceFile ∈ tmp then tmp else tmp ++ [sourceFile])

/-- The constructor `Analyser::Analyser` for a project directory given in canonical form. -/
def create (fs : FileSystem) (path : Path) : Analyser :=
  ⟨path, collectSourceFiles fs (fs.entries path) []⟩

end Analyser

/-- The order `path::compare` induces on file names: character by character. -/
def charsLess : List Char → List Char → Bool
  | _, [] => false
  | [], _ :: _ => true
  | a :: as, b :: bs => a.toNat < b.toNat || (a == b && charsLess as bs)

/-- Lexicographic order on lists of file names. -/
def namesLess : List String → List String → Bool
  | _, [] => false
  | [], _ :: _ => true
  | a :: as, b :: bs => charsLess a.data b.data || (a == b && namesLess as bs)

/-- The `operator<` of paths: a path without root directory comes before one with it, then
the file names decide. -/
def pathLess (p q : Path) : Bool :=
  (!p.rooted && q.rooted) || (p.rooted == q.rooted && namesLess p.names q.names)

/-- The comparison `includesCounter.key_comp()`: `std::less` on pairs of paths. -/
def keyLess (a b : CounterKey) : Bool :=
  pathLess a.1 b.1 || (!pathLess b.1 a.1 && pathLess a.2 b.2)

/-- The lambda `counterLess` (lines 144-150). -/
def counterLess (left right : CounterKey × Nat) : Bool :=
  if left.2 = right.2 then keyLess left.1 right.1 else decide (left.2 > right.2)

/-- Insertion into the `std::set` ordered by `counterLess`: an element equivalent to one already
present is not inserted. -/
def insertSorted (x : CounterKey × Nat) : List (CounterKey × Nat) → List (CounterKey × Nat)
  | [] => [x]
  | y :: rest =>
    if counterLess x y then x :: y :: rest
    else if counterLess y x then y :: insertSorted x rest
    else y :: rest

/-- The lines printed after the trees (lines 151-158): the referenced path and the count of
every element of `sortedIncludeCounters`, in its order. -/
def reportLines (counter : IncludeCounter) : List (Path × Nat) :=
  (counter.foldl (fun sorted e => insertSorted e sorted) []).map (fun e => (e.1.1, e.2))

/-- How the member `printDependencyTree` ends: it completes with the trees of all roots, the
final effects and the report lines, or the exception of `getIncludes` leaves it before the
report is printed. -/
inductive RunOutcome where
  | completed (trees : List CallTree) (st : Effects) (report : List (Path × Nat))
  | thrown (st : Effects)

namespace Analyser

/-- The loop of lines 135-140 over the source files. The walker is called without a depth;
the default argument, declared in `Analyser.hpp`, is taken to be 0. -/
def forSourceFiles (fs : FileSystem) (path : Path) (includePaths : List Path) (fuel : Nat) :
    List Include → Effects → Option LoopOutcome
  | [], st => some (LoopOutcome.done [] st)
  | sourceFile :: more, st =>
    let counterKey : CounterKey := (sourceFile.path.relativeTo path, path)
    let st1 := { st with includeCounter := addAt counterKey 0 st.includeCounter }
    match printDependencyTree fs includePaths fuel sourceFile path [] 0 st1 with
    | none => none
    | some (Outcome.thrown st2) => some (LoopOutcome.thrown st2)
    | some (Outcome.returned _ _ tree st2) =>
      match forSourceFiles fs path includePaths fuel more st2 with
      | none => none
      | some (LoopOutcome.thrown st3) => some (LoopOutcome.thrown st3)
      | some (LoopOutcome.done trees st3) => some (LoopOutcome.done (tree :: trees) st3)

/-- The member `printDependencyTree` (lines 130-159); every root is walked with at most `fuel`
nested invocations. -/
def printDependencyTreeMember (fs : FileSystem) (self : Analyser) (includePaths : List Path)
    (fuel : Nat) : Option RunOutcome :=
  match forSourceFiles fs self.path includePaths fuel self.sourceFiles ⟨[], [], []⟩ with
  | none => none
  | some (LoopOutcome.thrown st) => some (RunOutcome.thrown st)
  | some (LoopOutcome.done trees st) =>
    some (RunOutcome.completed trees st (reportLines st.includeCounter))

end Analyser

/-! ## A disk of regular files

The concrete file systems of the scenarios: finitely many regular files under absolute,
normalised paths, no symbolic links. Directories are the proper ancestors of the files. -/

/-- A disk: the regular files, each with its content. -/
abbrev Disk := List (List String × String)

namespace Disk

/-- Whether `d` is a directory of the disk: the root, or a proper ancestor of a file. -/
def isDirectory (disk : Disk) (d : List String) : Bool :=
  d.isEmpty || disk.any (fun f => d.isPrefixOf f.1 && d.length < f.1.length)

/-- Path name resolution from directory `cur`: `.` stays, `..` goes up (the root is its own
parent), any other name goes down; every name is looked up in a directory. -/
def resolve (disk : Disk) : List String → List String → Option (List String)
  | cur, [] => some cur
  | cur, n :: rest =>
    if !isDirectory disk cur then none
    else if n = "." then resolve disk cur rest
    else if n = ".." then resolve disk cur.dropLast rest
    else resolve disk (cur ++ [n]) rest

/-- The file a path names, for a process whose working directory is `cwd`. -/
def locate (disk : Disk) (cwd : List String) (p : Path) : Option (List String × String) :=
  match resolve disk (if p.rooted then [] else cwd) p.names with
  | none => none
  | some target => disk.find? (fun f => f.1 = target)

/-- The directories on the way to a file, given the names that lead to it: every proper,
non-empty initial part of the names, outermost first. -/
def directoriesOn : List String → List (List String)
  | [] => []
  | n :: rest => if rest.isEmpty then [] else [n] :: (directoriesOn rest).map (fun x => n :: x)

/-- The entries of `recursive_directory_iterator(d)`: the directories and the files below `d`,
each once, as `d` followed by its names. -/
def entries (disk : Disk) (d : Path) : List Path :=
  ((disk.filter (fun f => d.names.isPrefixOf f.1 && d.names.length < f.1.length)).flatMap
      (fun f =>
        ((directoriesOn (f.1.drop d.names.length)).map
            (fun x => (⟨d.rooted, d.names ++ x⟩ : Path))) ++
          [⟨d.rooted, f.1⟩])).foldl
    (fun found e => if e ∈ found then found else found ++ [e]) []

/-- The file system a process with working directory `cwd` observes on the disk. -/
def toFileSystem (disk : Disk) (cwd : List String) : FileSystem where
  isRegularFile p := (locate disk cwd p).isSome
  fileData p := (locate disk cwd p).map (fun f => f.2.data)
  entries d := entries disk d

end Disk

/-! ## Scenarios -/

namespace Scenario

/-- The canonical project directory `/proj` of the scenarios. -/
def proj : Path := ⟨true, ["proj"]⟩

/-- The file system of a process running in `/proj`. -/
def fileSystem (disk : Disk) : FileSystem := disk.toFileSystem ["proj"]

/-- A quoted reference to a relative path. -/
def quoted (names : List String) : Include := ⟨⟨false, names⟩, IncludeType.q_char⟩

/-- A root file as the constructor stores it: the absolute path of the entry, quoted. -/
def root (names : List String) : Include := ⟨⟨true, names⟩, IncludeType.q_char⟩

/-- The state in which the member function starts: empty counter map, nothing printed. -/
def start : Effects := ⟨[], [], []⟩

/-- A project whose only file `sub/a.hpp` includes itself as `../sub/a.hpp`. -/
def loopDisk : Disk := [(["proj", "sub", "a.hpp"], "#include \"../sub/a.hpp\"\n")]

/-- The directory `/proj/sub` followed by `k` times `../sub`, as file names. -/
def loopNames : Nat → List String
  | 0 => ["proj", "sub"]
  | k + 1 => loopNames k ++ ["..", "sub"]

/-- The reference `"../sub/a.hpp"`. -/
def loopInclude : Include := quoted ["..", "sub", "a.hpp"]

/-- Mutual inclusion: `a.hpp` includes `b.hpp` and `b.hpp` includes `a.hpp`. -/
def mutualDisk : Disk :=
  [(["proj", "a.hpp"], "#include \"b.hpp\"\n"), (["proj", "b.hpp"], "#include \"a.hpp\"\n")]

/-- Self-inclusion: `a.hpp` includes `a.hpp`. -/
def selfDisk : Disk := [(["proj", "a.hpp"], "#include \"a.hpp\"\n")]

/-- A diamond: `a.hpp` includes `b.hpp` and `d.hpp`, which both include `c.hpp`. -/
def diamondDisk : Disk :=
  [(["proj", "a.hpp"], "#include \"b.hpp\"\n#include \"d.hpp\"\n"),
   (["proj", "b.hpp"], "#include \"c.hpp\"\n"),
   (["proj", "c.hpp"], "// nothing\n"),
   (["proj", "d.hpp"], "#include \"c.hpp\"\n")]

/-- Two roots `a.hpp` and `c.hpp` that include `shared.hpp`, which has no directive. -/
def sharedDisk : Disk :=
  [(["proj", "a.hpp"], "#include \"shared.hpp\"\n"),
   (["proj", "c.hpp"], "#include \"shared.hpp\"\n"),
   (["proj", "shared.hpp"], "int shared;\n")]

/-- A file `sub/a.hpp` that includes `"b.hpp"`, present both in `sub/` and in `/inc`. -/
def nestedDisk : Disk :=
  [(["proj", "sub", "a.hpp"], "#include \"b.hpp\"\n"),
   (["proj", "sub", "b.hpp"], "int b;\n"),
   (["inc", "b.hpp"], "int other;\n")]

/-- A file `a.cpp` that includes `<lib.hpp>`, which exists nowhere. -/
def missingDisk : Disk := [(["proj", "a.cpp"], "#include <lib.hpp>\n")]

/-- The trees of the run over `sharedDisk`, one per root. -/
def sharedTrees : List CallTree :=
  [CallTree.node (root ["proj", "a.hpp"]) proj false
      [CallTree.node (quoted ["shared.hpp"]) proj false []],
    CallTree.node (root ["proj", "c.hpp"]) proj false
      [CallTree.node (quoted ["shared.hpp"]) proj false []],
    CallTree.node (root ["proj", "shared.hpp"]) proj false []]

/-- The effects of the run over `sharedDisk`. -/
def sharedEffects : Effects :=
  ⟨[(((quoted ["a.hpp"]).path, proj), 0), (((quoted ["shared.hpp"]).path, proj), 2),
      (((quoted ["c.hpp"]).path, proj), 0)],
    [⟨(root ["proj", "a.hpp"]).path, 0, true, false, some proj⟩,
      ⟨(quoted ["shared.hpp"]).path, 2, true, false, none⟩,
      ⟨(root ["proj", "c.hpp"]).path, 0, true, false, some proj⟩,
      ⟨(quoted ["shared.hpp"]).path, 2, true, false, none⟩,
      ⟨(root ["proj", "shared.hpp"]).path, 0, true, false, some proj⟩],
    [(root ["proj", "a.hpp"]).path, (root ["proj", "shared.hpp"]).path,
      (root ["proj", "c.hpp"]).path, (root ["proj", "shared.hpp"]).path,
      (root ["proj", "shared.hpp"]).path]⟩

/-- The report lines of the run over `sharedDisk`. -/
def sharedReport : List (Path × Nat) :=
  [((quoted ["shared.hpp"]).path, 2), ((quoted ["a.hpp"]).path, 0),
    ((quoted ["c.hpp"]).path, 0)]

/-- The tree of the walk of root `a.hpp` over `diamondDisk`. -/
def diamondTree : CallTree :=
  CallTree.node (root ["proj", "a.hpp"]) proj false
    [CallTree.node (quoted ["b.hpp"]) proj false
        [CallTree.node (quoted ["c.hpp"]) proj false []],
      CallTree.node (quoted ["d.hpp"]) proj false
        [CallTree.node (quoted ["c.hpp"]) proj false []]]

/-- The effects of the walk of root `a.hpp` over `diamondDisk`, started as the member function
starts it. -/
def diamondEffects : Effects :=
  ⟨[(((quoted ["a.hpp"]).path, proj), 0), (((quoted ["c.hpp"]).path, proj), 2),
      (((quoted ["b.hpp"]).path, proj), 1), (((quoted ["d.hpp"]).path, proj), 1)],
    [⟨(root ["proj", "a.hpp"]).path, 0, true, false, some proj⟩,
      ⟨(quoted ["b.hpp"]).path, 2, true, false, none⟩,
      ⟨(quoted ["c.hpp"]).path, 4, true, false, none⟩,
      ⟨(quoted ["d.hpp"]).path, 2, true, false, none⟩,
      ⟨(quoted ["c.hpp"]).path, 4, true, false, none⟩],
    [(root ["proj", "a.hpp"]).path, (root ["proj", "b.hpp"]).path,
      (root ["proj", "c.hpp"]).path, (root ["proj", "d.hpp"]).path,
      (root ["proj", "c.hpp"]).path]⟩

/-- The tree of the walk of root `sub/a.hpp` over `nestedDisk` with search directory `/inc`. -/
def nestedTree : CallTree :=
  CallTree.node (root ["proj", "sub", "a.hpp"]) proj false
    [CallTree.node (quoted ["b.hpp"]) ⟨true, ["proj", "sub"]⟩ false []]

/-- The effects of that walk, started as the member function starts it. -/
def nestedEffects : Effects :=
  ⟨[(((quoted ["sub", "a.hpp"]).path, proj), 0),
      (((quoted ["b.hpp"]).path, ⟨true, ["proj", "sub"]⟩), 1)],
    [⟨(root ["proj", "sub", "a.hpp"]).path, 0, true, false, some proj⟩,
      ⟨(quoted ["b.hpp"]).path, 2, true, false, none⟩],
    [(root ["proj", "sub", "a.hpp"]).path, (root ["proj", "sub", "b.hpp"]).path]⟩

/-- The file system over `sharedDisk` in which `/proj/shared.hpp` is a regular file that cannot
be opened for reading. -/
def lockedFileSystem : FileSystem :=
  { fileSystem sharedDisk with
    fileData := fun p =>
      if p = ⟨true, ["proj", "shared.hpp"]⟩ then none else (fileSystem sharedDisk).fileData p }

/-- The state in which the run over `lockedFileSystem` is left by the exception. -/
def lockedEffects : Effects :=
  ⟨[(((quoted ["a.hpp"]).path, proj), 0)],
    [⟨(root ["proj", "a.hpp"]).path, 0, true, false, some proj⟩,
      ⟨(quoted ["shared.hpp"]).path, 2, true, false, none⟩],
    [(root ["proj", "a.hpp"]).path]⟩

/-- A source text with the raw string literal `R"x(a(b)x(a"⏎#include "ghost.hpp"⏎)x"`: its
delimiter is `x` and its body runs to the first `)x"`, two lines further down. -/
def rawLiteralText : List Char :=
  "const char* s = R\"x(a(b)x(a\"\n#include \"ghost.hpp\"\n)x\";\n".data

/-- A source text without comment and without raw string literal: an ordinary string literal
that ends in `R`, a call on the same line, and an include on the next line. -/
def plainText : List Char := "log(\"ERROR\", code(1));\n#include \"a.hpp\"\n".data

/-- A text of four lines: a directive line with blanks and a trailing comment, a line with a
directive behind other text, a directive line, and a line whose name is the bare extension. -/
def mixedText : List Char :=
  ("  # include <sub/b.hpp> // x\nint y; #include \"no.hpp\"\n" ++
    "#include \"c.cpp\"\n#include \".hpp\"").data

/-- The tree of the walk of root `a.hpp` over `mutualDisk`: the last node repeats the pair
`(b.hpp, /proj)` of its grandparent and carries the cycle mark. -/
def mutualTree : CallTree :=
  CallTree.node (root ["proj", "a.hpp"]) proj false
    [CallTree.node (quoted ["b.hpp"]) proj false
      [CallTree.node (quoted ["a.hpp"]) proj false
        [CallTree.node (quoted ["b.hpp"]) proj true []]]]

/-- The effects of that walk, started as the member function starts it. -/
def mutualEffects : Effects :=
  ⟨[(((quoted ["a.hpp"]).path, proj), 1), (((quoted ["b.hpp"]).path, proj), 2)],
    [⟨(root ["proj", "a.hpp"]).path, 0, true, false, some proj⟩,
      ⟨(quoted ["b.hpp"]).path, 2, true, false, none⟩,
      ⟨(quoted ["a.hpp"]).path, 4, true, false, none⟩,
      ⟨(quoted ["b.hpp"]).path, 6, true, true, none⟩],
    [(root ["proj", "a.hpp"]).path, (root ["proj", "b.hpp"]).path,
      (root ["proj", "a.hpp"]).path]⟩

end Scenario

/-! ## Reading the call tree -/

namespace CallTree

/-- The reference of the root node. -/
def sourceFile : CallTree → Include
  | node s _ _ _ => s

/-- The directory the root node resolved to (empty when unresolved). -/
def parentPath : CallTree → Path
  | node _ p _ _ => p

/-- The cycle flag of the root node. -/
def cycle : CallTree → Bool
  | node _ _ c _ => c

/-- The subtrees of the root node. -/
def children : CallTree → List CallTree
  | node _ _ _ cs => cs

/-- The pair of the root node: its referenced path and the directory it resolved to. -/
def key (t : CallTree) : CounterKey := (t.sourceFile.path, t.parentPath)

mutual
/-- All nodes of a tree, each as the subtree it roots, the root first. -/
def nodes : CallTree → List CallTree
  | node s p c cs => node s p c cs :: nodesOfList cs
/-- All nodes of a list of trees. -/
def nodesOfList : List CallTree → List CallTree
  | [] => []
  | t :: ts => nodes t ++ nodesOfList ts
end

/-- The nodes of a tree other than its root. -/
def nonRootNodes (t : CallTree) : List CallTree := nodesOfList t.children

/-- The number of nodes other than the root whose pair is `k`. -/
def nonRootCount (k : CounterKey) (t : CallTree) : Nat :=
  (t.nonRootNodes.filter (fun n => n.key = k)).length

mutual
/-- Every node of a tree together with the pairs of its proper ancestors, nearest first;
`above` holds the pairs of the ancestors of the root. -/
def withAncestors : List CounterKey → CallTree → List (CallTree × List CounterKey)
  | above, node s p c cs =>
    (node s p c cs, above) :: withAncestorsOfList ((s.path, p) :: above) cs
/-- The same for a list of sibling trees. -/
def withAncestorsOfList :
    List CounterKey → List CallTree → List (CallTree × List CounterKey)
  | _, [] => []
  | above, t :: ts => withAncestors above t ++ withAncestorsOfList above ts
end

end CallTree

/-! ## Derived notions used in the statements -/

/-- The record an invocation prints. -/
def recordOf (sourceFile : Include) (parentPath : Path) (cycleInclude : Bool) (depth : Nat) :
    BranchRecord :=
  ⟨sourceFile.path, depth, !parentPath.isEmpty, cycleInclude,
    if sourceFile.path.isRelative then none else some parentPath⟩

/-- The number of trees in a list whose root pair is `k`. -/
def keyCount (k : CounterKey) (l : List CallTree) : Nat :=
  (l.filter (fun n => n.key = k)).length

/-- An entry after `n` increments by one: untouched when `n = 0`, else present. -/
def raised (o : Option Nat) (n : Nat) : Option Nat :=
  if n = 0 then o else some (o.getD 0 + n)

/-- The counter key the run initialises for a root file. -/
def rootKey (path : Path) (sourceFile : Include) : CounterKey :=
  (sourceFile.path.relativeTo path, path)

/-- The number of nodes other than roots, over all trees of a run, whose pair is `k`. -/
def childNodeCount (k : CounterKey) (trees : List CallTree) : Nat :=
  (trees.map (CallTree.nonRootCount k)).sum

/-- Lexicographic comparison of two lists under a comparison `lt` of their elements: the
common shape of `charsLess` and `namesLess`. -/
def lexLess {α : Type} [DecidableEq α] (lt : α → α → Bool) : List α → List α → Bool
  | _, [] => false
  | [], _ :: _ => true
  | a :: as, b :: bs => lt a b || (decide (a = b) && lexLess lt as bs)

/-- The elements of `sortedIncludeCounters` in its order: the entries of the map inserted one
by one. -/
def sortedCounters (counter : IncludeCounter) : List (CounterKey × Nat) :=
  counter.foldl (fun sorted e => insertSorted e sorted) []

/-- The line feed character. -/
def lineFeed : Char := Char.ofNat 10

/-- The lines of a text: the pieces between line feeds, in order. -/
def splitLines : List Char → List (List Char)
  | [] => [[]]
  | c :: cs =>
    if c = lineFeed then [] :: splitLines cs
    else
      match splitLines cs with
      | [] => [[c]]
      | l :: ls => (c :: l) :: ls

/-- The text that follows a line when the lines `ls` come after it: each one behind a line
feed. -/
def afterLines : List (List Char) → List Char
  | [] => []
  | l :: ls => lineFeed :: (l ++ afterLines ls)

/-- The reference `includeRegex` finds at the start of a line, if any. -/
def lineReference (line : List Char) : Option Include :=
  (matchDirective line).map Prod.fst

/-- A directive line, in the words of the specification (amended): optional horizontal white
space, `#`, optional horizontal white space, `include`, optional horizontal white space, then
`"name"` (`quote = true`) or `<name>`, where `name` consists of word characters, dots, `/` and
`\`, ends in `.hpp` or `.cpp` and has at least one character before that extension; anything
may follow. The reference carries the name and the kind of the delimiters. -/
def IsDirectiveLine (line : List Char) (inc : Include) : Prop :=
  ∃ (s1 s2 s3 stem ext tail : List Char) (quote : Bool),
    line = s1 ++ '#' :: (s2 ++ ("include".data ++ (s3 ++
      (if quote then dquote else '<') :: ((stem ++ ext) ++
        (if quote then dquote else '>') :: tail)))) ∧
    (∀ c ∈ s1, isHSpace c = true) ∧ (∀ c ∈ s2, isHSpace c = true) ∧
    (∀ c ∈ s3, isHSpace c = true) ∧
    (∀ c ∈ stem, isNameChar c = true) ∧ stem ≠ [] ∧
    (ext = ".hpp".data ∨ ext = ".cpp".data) ∧
    inc = ⟨Path.ofChars (stem ++ ext),
      if quote then IncludeType.q_char else IncludeType.h_char⟩

/-- The last stage of `matchDirective`: the delimited name, with `used` characters consumed
before it. -/
def directiveName (used : Nat) (t : List Char) : Option (Include × Nat) :=
  match t with
  | [] => none
  | o :: t4 =>
    if o = dquote then
      (matchName dquote t4).map
        (fun m => (⟨Path.ofChars m.1, IncludeType.q_char⟩, used + 1 + m.2))
    else if o = '<' then
      (matchName '>' t4).map
        (fun m => (⟨Path.ofChars m.1, IncludeType.h_char⟩, used + 1 + m.2))
    else none

/-- The middle stage of `matchDirective`: the word `include` and the white space after it,
with `used` characters consumed before the word. -/
def directiveWord (used : Nat) (t2 : List Char) : Option (Include × Nat) :=
  if startsWith t2 ['i', 'n', 'c', 'l', 'u', 'd', 'e'] then
    directiveName (used + 7 + ((t2.drop 7).takeWhile isHSpace).length)
      ((t2.drop 7).drop ((t2.drop 7).takeWhile isHSpace).length)
  else none

/-- The function `matchDirective` written by stages. -/
def directiveStaged (text : List Char) : Option (Include × Nat) :=
  match text.drop (text.takeWhile isHSpace).length with
  | [] => none
  | c :: t1 =>
    if c = '#' then
      directiveWord ((text.takeWhile isHSpace).length + 1 + (t1.takeWhile isHSpace).length)
        (t1.drop (t1.takeWhile isHSpace).length)
    else none

/-! ## Path Resolver -/

open Analyser

theorem searchIncludePaths_eq_find (fs : FileSystem) (sourcePath : Path) (L : List Path) :
    Analyser.searchIncludePaths fs sourcePath L =
      (L.find? (fun s => fs.isRegularFile (s.join sourcePath))).getD Path.empty := by
  induction L with
  | nil => rfl
  | cons s more ih =>
    by_cases h : fs.isRegularFile (s.join sourcePath) = true
    · simp [Analyser.searchIncludePaths, List.find?, h]
    · simp [Analyser.searchIncludePaths, List.find?, h, ih]

/-- C1: `findIncludeParentPath` returns the base directory `d` when the reference is quoted
and `d/r.path` is a regular file; otherwise the first directory `s` of the search list, in list
order, with `s/r.path` a regular file; otherwise the empty path. An angled reference is never
looked up in `d` (its result is the same for every base directory and does not depend on
whether `d/r.path` is a file), and a quoted reference found in `d` wins over the whole list. -/
theorem findIncludeParentPath_spec (fs : FileSystem) (r : Include) (d : Path)
    (L : List Path) :
    Analyser.findIncludeParentPath fs r d L =
        (if r.type = IncludeType.q_char ∧ fs.isRegularFile (d.join r.path) = true then d
         else (L.find? (fun s => fs.isRegularFile (s.join r.path))).getD Path.empty) ∧
      (r.type = IncludeType.h_char →
        Analyser.findIncludeParentPath fs r d L =
          (L.find? (fun s => fs.isRegularFile (s.join r.path))).getD Path.empty) ∧
      (r.type = IncludeType.q_char → fs.isRegularFile (d.join r.path) = true →
        Analyser.findIncludeParentPath fs r d L = d) := by
  refine ⟨?_, ?_, ?_⟩
  · unfold Analyser.findIncludeParentPath
    rw [searchIncludePaths_eq_find]
  · intro h
    unfold Analyser.findIncludeParentPath
    rw [searchIncludePaths_eq_find]
    simp [h]
  · intro h1 h2
    unfold Analyser.findIncludeParentPath
    simp [h1, h2]

/-- C1 at concrete inputs, on the disk with `/proj/sub/b.hpp` and `/inc/b.hpp`: from base
directory `/proj/sub` with search list `[/nowhere, /inc]`, the quoted `"b.hpp"` resolves to
`/proj/sub`, the angled `<b.hpp>` to `/inc`, and `"c.hpp"`, found nowhere, to the empty path. -/
theorem findIncludeParentPath_spec_witness :
    findIncludeParentPath (Scenario.fileSystem Scenario.nestedDisk) (Scenario.quoted ["b.hpp"])
        ⟨true, ["proj", "sub"]⟩ [⟨true, ["nowhere"]⟩, ⟨true, ["inc"]⟩] =
      ⟨true, ["proj", "sub"]⟩ ∧
    findIncludeParentPath (Scenario.fileSystem Scenario.nestedDisk)
        ⟨⟨false, ["b.hpp"]⟩, IncludeType.h_char⟩ ⟨true, ["proj", "sub"]⟩
        [⟨true, ["nowhere"]⟩, ⟨true, ["inc"]⟩] =
      ⟨true, ["inc"]⟩ ∧
    findIncludeParentPath (Scenario.fileSystem Scenario.nestedDisk) (Scenario.quoted ["c.hpp"])
        ⟨true, ["proj", "sub"]⟩ [⟨true, ["nowhere"]⟩, ⟨true, ["inc"]⟩] =
      Path.empty :=
  ⟨(findIncludeParentPath_spec _ _ _ _).2.2 rfl (by decide),
    ((findIncludeParentPath_spec _ _ _ _).2.1 rfl).trans (by decide),
    (findIncludeParentPath_spec _ _ _ _).1.trans (by decide)⟩

/-! ## Unfolding the walker -/

theorem forIncludes_cons_done {call : Include → Effects → Option Outcome} {inc : Include}
    {more : List Include} {st st' : Effects} {ts : List CallTree}
    (h : forIncludes call (inc :: more) st = some (LoopOutcome.done ts st')) :
    ∃ p ch t st1 ts',
      call inc st = some (Outcome.returned p ch t st1) ∧
      forIncludes call more
          { st1 with includeCounter := addAt (inc.path, p) 1 st1.includeCounter } =
        some (LoopOutcome.done ts' st') ∧
      ts = t :: ts' := by
  unfold forIncludes at h
  split at h
  · exact absurd h (by simp)
  · exact absurd h (by simp)
  · rename_i p ch t st1 hc
    dsimp only at h
    split at h
    · exact absurd h (by simp)
    · exact absurd h (by simp)
    · rename_i ts' st3 hm
      simp only [Option.some.injEq, LoopOutcome.done.injEq] at h
      exact ⟨p, ch, t, st1, ts', hc, by rw [hm, ← h.2], h.1.symm⟩

theorem printDependencyTree_returned {fs : FileSystem} {L : List Path} {fuel : Nat}
    {src : Include} {cur : Path} {chain : List CounterKey} {depth : Nat} {st st' : Effects}
    {p : Path} {ch : List CounterKey} {t : CallTree}
    (h : printDependencyTree fs L (fuel + 1) src cur chain depth st =
      some (Outcome.returned p ch t st')) :
    p = findIncludeParentPath fs src cur L ∧
    ch = (if (src.path, p) ∈ chain then chain else (src.path, p) :: chain) ∧
    ∃ children, t = CallTree.node src p (decide ((src.path, p) ∈ chain)) children ∧
      (((p.isEmpty = true ∨ (src.path, p) ∈ chain) ∧ children = [] ∧
          st' = { st with
            output := st.output ++ [recordOf src p (decide ((src.path, p) ∈ chain)) depth] }) ∨
        (p.isEmpty = false ∧ (src.path, p) ∉ chain ∧
          ∃ incs, getIncludes fs (p.join src.path) = some incs ∧
            forIncludes
              (fun inc s =>
                printDependencyTree fs L fuel inc (p.join src.path).parentPath
                  ((src.path, p) :: chain) ((depth + 2) % depthModulus) s)
              incs
              { st with
                output := st.output ++ [recordOf src p false depth]
                opened := st.opened ++ [p.join src.path] } =
            some (LoopOutcome.done children st'))) := by
  unfold printDependencyTree at h
  simp only [] at h
  by_cases hc : (src.path, findIncludeParentPath fs src cur L) ∈ chain
  · simp only [hc, decide_True, Bool.not_true, Bool.and_false, if_true, Bool.false_eq_true,
      if_false, Option.some.injEq, Outcome.returned.injEq] at h
    obtain ⟨h1, h2, h3, h4⟩ := h
    subst h1 h2 h3 h4
    refine ⟨rfl, by simp [hc], [], by simp [hc], Or.inl ⟨Or.inr hc, rfl, ?_⟩⟩
    simp [recordOf, hc]
  · by_cases he : (findIncludeParentPath fs src cur L).isEmpty = true
    · simp only [hc, he, decide_False, Bool.not_true, Bool.false_and, if_false,
        Bool.false_eq_true, Option.some.injEq, Outcome.returned.injEq] at h
      obtain ⟨h1, h2, h3, h4⟩ := h
      subst h1 h2 h3 h4
      refine ⟨rfl, by simp [hc], [], by simp [hc], Or.inl ⟨Or.inl he, rfl, ?_⟩⟩
      simp [recordOf, hc, he]
    · simp only [hc, he, decide_False, Bool.not_false, Bool.and_self, if_true, if_false,
        Bool.false_eq_true] at h
      split at h
      · exact absurd h (by simp)
      · rename_i incs hg
        split at h
        · exact absurd h (by simp)
        · exact absurd h (by simp)
        · rename_i trees st3 hf
          simp only [Option.some.injEq, Outcome.returned.injEq] at h
          obtain ⟨h1, h2, h3, h4⟩ := h
          subst h1 h2 h3 h4
          refine ⟨rfl, by simp [hc], trees, by simp [hc], Or.inr ⟨by simpa using he, hc,
            incs, hg, ?_⟩⟩
          simpa [recordOf, he, hc] using hf

/-- The root of the call tree of an invocation is the reference it was given, resolved by the
Path Resolver from the directory it was given and flagged by the chain it was given. -/
theorem printDependencyTree_root {fs : FileSystem} {L : List Path} {fuel : Nat}
    {src : Include} {cur : Path} {chain : List CounterKey} {depth : Nat} {st st' : Effects}
    {p : Path} {ch : List CounterKey} {t : CallTree}
    (h : printDependencyTree fs L fuel src cur chain depth st =
      some (Outcome.returned p ch t st')) :
    t.sourceFile = src ∧ t.parentPath = p ∧ p = findIncludeParentPath fs src cur L ∧
      t.cycle = decide ((src.path, p) ∈ chain) := by
  cases fuel with
  | zero => simp [printDependencyTree] at h
  | succ n =>
    obtain ⟨hp, _, children, ht, _⟩ := printDependencyTree_returned h
    subst ht
    exact ⟨rfl, rfl, hp, rfl⟩

/-! ## The counter map follows the call tree -/

theorem raised_raised (o : Option Nat) (a b : Nat) :
    raised (raised o a) b = raised o (a + b) := by
  unfold raised
  by_cases ha : a = 0 <;> by_cases hb : b = 0 <;> simp [ha, hb, Nat.add_assoc]

theorem entryAt_addAt (k k' : CounterKey) (n : Nat) (c : IncludeCounter) :
    entryAt k (addAt k' n c) =
      if k' = k then some ((entryAt k c).getD 0 + n) else entryAt k c := by
  induction c with
  | nil =>
    by_cases h : k' = k <;> simp [addAt, entryAt, h]
  | cons e rest ih =>
    obtain ⟨ek, ev⟩ := e
    by_cases h1 : ek = k'
    · subst h1
      by_cases h2 : ek = k
      · subst h2
        simp [addAt, entryAt]
      · simp [addAt, entryAt, h2]
    · by_cases h2 : ek = k
      · subst h2
        have h3 : ¬ k' = ek := fun h => h1 h.symm
        simp [addAt, entryAt, h1, h3]
      · simp [addAt, entryAt, h1, h2, ih]

theorem entryAt_addAt_one (k k' : CounterKey) (c : IncludeCounter) :
    entryAt k (addAt k' 1 c) = raised (entryAt k c) (if k' = k then 1 else 0) := by
  rw [entryAt_addAt]
  by_cases h : k' = k <;> simp [raised, h]

theorem keyCount_append (k : CounterKey) (a b : List CallTree) :
    keyCount k (a ++ b) = keyCount k a + keyCount k b := by
  simp [keyCount]

theorem keyCount_cons (k : CounterKey) (t : CallTree) (l : List CallTree) :
    keyCount k (t :: l) = (if t.key = k then 1 else 0) + keyCount k l := by
  by_cases h : t.key = k <;> simp [keyCount, h, Nat.add_comm]

theorem nodes_eq (t : CallTree) : t.nodes = t :: CallTree.nodesOfList t.children := by
  cases t with
  | node s p c cs => simp [CallTree.nodes, CallTree.children]

theorem nodesOfList_cons (t : CallTree) (ts : List CallTree) :
    CallTree.nodesOfList (t :: ts) = t.nodes ++ CallTree.nodesOfList ts := by
  simp [CallTree.nodesOfList]

theorem nonRootCount_eq (k : CounterKey) (t : CallTree) :
    t.nonRootCount k = keyCount k (CallTree.nodesOfList t.children) := rfl

/-- The loop raises every entry by the number of nodes of the child trees with that pair,
when each call does so for the nodes below its root and roots its tree at its reference. -/
theorem forIncludes_counter {call : Include → Effects → Option Outcome}
    (hcall : ∀ inc s p ch t s1, call inc s = some (Outcome.returned p ch t s1) →
      t.key = (inc.path, p) ∧
      ∀ k, entryAt k s1.includeCounter = raised (entryAt k s.includeCounter) (t.nonRootCount k)) :
    ∀ (incs : List Include) (st st' : Effects) (ts : List CallTree),
      forIncludes call incs st = some (LoopOutcome.done ts st') →
      ∀ k, entryAt k st'.includeCounter =
        raised (entryAt k st.includeCounter) (keyCount k (CallTree.nodesOfList ts)) := by
  intro incs
  induction incs with
  | nil =>
    intro st st' ts h k
    simp only [forIncludes, Option.some.injEq, LoopOutcome.done.injEq] at h
    obtain ⟨h1, h2⟩ := h
    subst h1 h2
    simp [CallTree.nodesOfList, keyCount, raised]
  | cons inc more ih =>
    intro st st' ts h k
    obtain ⟨p, ch, t, st1, ts', h1, h2, h3⟩ := forIncludes_cons_done h
    obtain ⟨hk, hc⟩ := hcall inc st p ch t st1 h1
    have := ih _ _ _ h2 k
    rw [this, h3, nodesOfList_cons, keyCount_append, nodes_eq, keyCount_cons]
    simp only []
    rw [entryAt_addAt_one, hc k, raised_raised, raised_raised, ← nonRootCount_eq, hk]
    congr 1
    omega

/-- An invocation that returns has raised every entry by the number of nodes below the root of
its call tree that carry the pair of the entry, and nothing else. -/
theorem printDependencyTree_counter (fs : FileSystem) (L : List Path) :
    ∀ (fuel : Nat) (src : Include) (cur : Path) (chain : List CounterKey) (depth : Nat)
      (st st' : Effects) (p : Path) (ch : List CounterKey) (t : CallTree),
      printDependencyTree fs L fuel src cur chain depth st =
        some (Outcome.returned p ch t st') →
      t.key = (src.path, p) ∧
      ∀ k, entryAt k st'.includeCounter =
        raised (entryAt k st.includeCounter) (t.nonRootCount k) := by
  intro fuel
  induction fuel with
  | zero =>
    intro src cur chain depth st st' p ch t h
    simp [printDependencyTree] at h
  | succ fuel ih =>
    intro src cur chain depth st st' p ch t h
    obtain ⟨_, _, children, ht, hcase⟩ := printDependencyTree_returned h
    subst ht
    refine ⟨rfl, ?_⟩
    intro k
    rcases hcase with ⟨_, hnil, hst⟩ | ⟨_, _, incs, _, hloop⟩
    · subst hnil hst
      simp [CallTree.nonRootCount, CallTree.nonRootNodes, CallTree.children,
        CallTree.nodesOfList, raised]
    · have := forIncludes_counter (fun inc s p ch t s1 hc => ih _ _ _ _ _ _ _ _ _ hc)
        incs _ _ _ hloop k
      rw [this]
      rfl

/-! ## The run over all roots -/

theorem forSourceFiles_cons_done {fs : FileSystem} {path : Path} {L : List Path} {fuel : Nat}
    {sourceFile : Include} {more : List Include} {st st' : Effects} {ts : List CallTree}
    (h : forSourceFiles fs path L fuel (sourceFile :: more) st =
      some (LoopOutcome.done ts st')) :
    ∃ p ch t st1 ts',
      printDependencyTree fs L fuel sourceFile path [] 0
          { st with includeCounter := addAt (rootKey path sourceFile) 0 st.includeCounter } =
        some (Outcome.returned p ch t st1) ∧
      forSourceFiles fs path L fuel more st1 = some (LoopOutcome.done ts' st') ∧
      ts = t :: ts' := by
  unfold forSourceFiles at h
  dsimp only at h
  split at h
  · exact absurd h (by simp)
  · exact absurd h (by simp)
  · rename_i p ch t st1 hc
    split at h
    · exact absurd h (by simp)
    · exact absurd h (by simp)
    · rename_i ts' st3 hm
      simp only [Option.some.injEq, LoopOutcome.done.injEq] at h
      exact ⟨p, ch, t, st1, ts', hc, by rw [hm, ← h.2], h.1.symm⟩

/-- After the loop over the roots, the entry of a pair holds what it held before plus the
number of child nodes with that pair; it exists when it existed before, when the pair is the
key of a root, or when some child node carries the pair. The trees are rooted at the source
files, in order. -/
theorem forSourceFiles_counter (fs : FileSystem) (path : Path) (L : List Path) (fuel : Nat) :
    ∀ (roots : List Include) (st st' : Effects) (ts : List CallTree),
      forSourceFiles fs path L fuel roots st = some (LoopOutcome.done ts st') →
      ts.map CallTree.sourceFile = roots ∧
      ∀ k, entryAt k st'.includeCounter =
        if k ∈ roots.map (rootKey path) then
          some ((entryAt k st.includeCounter).getD 0 + childNodeCount k ts)
        else raised (entryAt k st.includeCounter) (childNodeCount k ts) := by
  intro roots
  induction roots with
  | nil =>
    intro st st' ts h
    simp only [forSourceFiles, Option.some.injEq, LoopOutcome.done.injEq] at h
    obtain ⟨h1, h2⟩ := h
    subst h1 h2
    simp [childNodeCount, raised]
  | cons r more ih =>
    intro st st' ts h
    obtain ⟨p, ch, t, st1, ts', h1, h2, h3⟩ := forSourceFiles_cons_done h
    obtain ⟨hroots, hrest⟩ := ih _ _ _ h2
    obtain ⟨hkey, hcount⟩ := printDependencyTree_counter fs L fuel _ _ _ _ _ _ _ _ _ h1
    obtain ⟨ht, _⟩ := printDependencyTree_root h1
    subst h3
    refine ⟨by simp [hroots, ht], ?_⟩
    intro k
    have e1 := hrest k
    have e2 := hcount k
    simp only [] at e2
    rw [entryAt_addAt] at e2
    rw [e1, e2]
    have hsum : childNodeCount k (t :: ts') = t.nonRootCount k + childNodeCount k ts' := by
      simp [childNodeCount]
    rw [hsum]
    generalize t.nonRootCount k = a
    generalize childNodeCount k ts' = b
    generalize entryAt k st.includeCounter = o
    by_cases hk : rootKey path r = k
    · have hmem : k ∈ List.map (rootKey path) (r :: more) := by simp [hk]
      by_cases hm : k ∈ List.map (rootKey path) more
      · by_cases ha : a = 0
        · simp [hk, hmem, hm, raised, ha]
        · simp [hk, hmem, hm, raised, ha, Nat.add_assoc]
      · by_cases ha : a = 0 <;> by_cases hb : b = 0 <;>
          simp [hk, hmem, hm, raised, ha, hb, Nat.add_assoc]
    · have hk' : ¬ k = rootKey path r := fun h => hk h.symm
      by_cases hm : k ∈ List.map (rootKey path) more
      · have hmem : k ∈ List.map (rootKey path) (r :: more) := by simp [hm]
        by_cases ha : a = 0
        · simp [hk, hmem, hm, raised, ha]
        · simp [hk, hmem, hm, raised, ha, Nat.add_assoc]
      · have hmem : k ∉ List.map (rootKey path) (r :: more) := by
          simpa [hk'] using hm
        simp only [hk, hmem, hm, if_false]
        exact raised_raised o a b

/-! ## Laws of the call tree -/

/-- The child trees of a completed loop are the trees of the calls on the includes, in order. -/
theorem forIncludes_trees {call : Include → Effects → Option Outcome} :
    ∀ (incs : List Include) (st st' : Effects) (ts : List CallTree),
      forIncludes call incs st = some (LoopOutcome.done ts st') →
      List.Forall₂
        (fun inc t => ∃ s p ch s1, call inc s = some (Outcome.returned p ch t s1)) incs ts := by
  intro incs
  induction incs with
  | nil =>
    intro st st' ts h
    simp only [forIncludes, Option.some.injEq, LoopOutcome.done.injEq] at h
    rw [← h.1]
    exact List.Forall₂.nil
  | cons inc more ih =>
    intro st st' ts h
    obtain ⟨p, ch, t, st1, ts', h1, h2, h3⟩ := forIncludes_cons_done h
    subst h3
    exact List.Forall₂.cons ⟨st, p, ch, st1, h1⟩ (ih _ _ _ h2)

theorem forall₂_of_mem_right {α β : Type} {R : α → β → Prop} {l₁ : List α} {l₂ : List β}
    (h : List.Forall₂ R l₁ l₂) {b : β} (hb : b ∈ l₂) : ∃ a ∈ l₁, R a b := by
  induction h with
  | nil => simp at hb
  | cons hhead _ ihtail =>
    simp only [List.mem_cons] at hb
    rcases hb with hb | hb
    · subst hb
      exact ⟨_, by simp, hhead⟩
    · obtain ⟨a, ha, hr⟩ := ihtail hb
      exact ⟨a, by simp [ha], hr⟩

/-- Every child tree of a completed loop is the tree of a call on one of the includes. -/
theorem forIncludes_tree_of_mem {call : Include → Effects → Option Outcome}
    {incs : List Include} {st st' : Effects} {ts : List CallTree}
    (h : forIncludes call incs st = some (LoopOutcome.done ts st')) {u : CallTree}
    (hu : u ∈ ts) :
    ∃ inc ∈ incs, ∃ s p ch s1, call inc s = some (Outcome.returned p ch u s1) :=
  forall₂_of_mem_right (forIncludes_trees incs st st' ts h) hu

theorem mem_withAncestorsOfList {above : List CounterKey} {x : CallTree × List CounterKey} :
    ∀ {ts : List CallTree}, x ∈ CallTree.withAncestorsOfList above ts →
      ∃ t ∈ ts, x ∈ CallTree.withAncestors above t := by
  intro ts
  induction ts with
  | nil => intro h; simp [CallTree.withAncestorsOfList] at h
  | cons t more ih =>
    intro h
    simp only [CallTree.withAncestorsOfList, List.mem_append] at h
    rcases h with h | h
    · exact ⟨t, by simp, h⟩
    · obtain ⟨u, hu, hx⟩ := ih h
      exact ⟨u, by simp [hu], hx⟩

theorem mem_nodesOfList {n : CallTree} :
    ∀ {ts : List CallTree}, n ∈ CallTree.nodesOfList ts → ∃ t ∈ ts, n ∈ t.nodes := by
  intro ts
  induction ts with
  | nil => intro h; simp [CallTree.nodesOfList] at h
  | cons t more ih =>
    intro h
    simp only [CallTree.nodesOfList, List.mem_append] at h
    rcases h with h | h
    · exact ⟨t, by simp, h⟩
    · obtain ⟨u, hu, hx⟩ := ih h
      exact ⟨u, by simp [hu], hx⟩

/-- Cycle law: in the call tree of an invocation, a node carries the cycle flag exactly when
its pair is among the pairs of its proper ancestors, the chain given to the invocation
standing for the ancestors of the root. -/
theorem printDependencyTree_cycle_law (fs : FileSystem) (L : List Path) :
    ∀ (fuel : Nat) (src : Include) (cur : Path) (chain : List CounterKey) (depth : Nat)
      (st st' : Effects) (p : Path) (ch : List CounterKey) (t : CallTree),
      printDependencyTree fs L fuel src cur chain depth st =
        some (Outcome.returned p ch t st') →
      ∀ x ∈ CallTree.withAncestors chain t, (x.1.cycle = true ↔ x.1.key ∈ x.2) := by
  intro fuel
  induction fuel with
  | zero =>
    intro src cur chain depth st st' p ch t h
    simp [printDependencyTree] at h
  | succ fuel ih =>
    intro src cur chain depth st st' p ch t h x hx
    obtain ⟨_, _, children, ht, hcase⟩ := printDependencyTree_returned h
    subst ht
    simp only [CallTree.withAncestors, List.mem_cons] at hx
    rcases hx with hx | hx
    · subst hx
      simp [CallTree.cycle, CallTree.key, CallTree.sourceFile, CallTree.parentPath]
    · rcases hcase with ⟨_, hnil, _⟩ | ⟨_, _, incs, _, hloop⟩
      · subst hnil
        simp [CallTree.withAncestorsOfList] at hx
      · obtain ⟨u, hu, hxu⟩ := mem_withAncestorsOfList hx
        obtain ⟨inc, _, s, q, c, s1, hcall⟩ := forIncludes_tree_of_mem hloop hu
        exact ih _ _ _ _ _ _ _ _ _ hcall x hxu

theorem map_eq_of_forall₂ {α β : Type} {R : α → β → Prop} {f : β → α} {l₁ : List α}
    {l₂ : List β} (h : List.Forall₂ R l₁ l₂) (hf : ∀ a b, R a b → f b = a) :
    l₂.map f = l₁ := by
  induction h with
  | nil => rfl
  | cons hhead _ ihtail => simp [hf _ _ hhead, ihtail]

/-- Expansion law: in the call tree of an invocation, a node that is unresolved or a cycle has
no children; a resolved node that is no cycle has one child per include of its file
`parentPath / path`, in order, and every child is resolved by the Path Resolver from the
directory of that file. -/
theorem printDependencyTree_children_law (fs : FileSystem) (L : List Path) :
    ∀ (fuel : Nat) (src : Include) (cur : Path) (chain : List CounterKey) (depth : Nat)
      (st st' : Effects) (p : Path) (ch : List CounterKey) (t : CallTree),
      printDependencyTree fs L fuel src cur chain depth st =
        some (Outcome.returned p ch t st') →
      ∀ n ∈ t.nodes,
        ((n.parentPath.isEmpty = true ∨ n.cycle = true) → n.children = []) ∧
        (n.parentPath.isEmpty = false → n.cycle = false →
          getIncludes fs (n.parentPath.join n.sourceFile.path) =
              some (n.children.map CallTree.sourceFile) ∧
            ∀ c ∈ n.children,
              c.parentPath =
                findIncludeParentPath fs c.sourceFile
                  (n.parentPath.join n.sourceFile.path).parentPath L) := by
  intro fuel
  induction fuel with
  | zero =>
    intro src cur chain depth st st' p ch t h
    simp [printDependencyTree] at h
  | succ fuel ih =>
    intro src cur chain depth st st' p ch t h n hn
    obtain ⟨_, _, children, ht, hcase⟩ := printDependencyTree_returned h
    subst ht
    simp only [CallTree.nodes, List.mem_cons] at hn
    rcases hn with hn | hn
    · subst hn
      simp only [CallTree.parentPath, CallTree.cycle, CallTree.children, CallTree.sourceFile,
        decide_eq_true_eq, decide_eq_false_iff_not]
      rcases hcase with ⟨hstop, hnil, _⟩ | ⟨hres, hnc, incs, hget, hloop⟩
      · refine ⟨fun _ => hnil, fun h1 h2 => ?_⟩
        rcases hstop with h3 | h3
        · rw [h1] at h3
          exact absurd h3 (by simp)
        · exact absurd h3 h2
      · refine ⟨fun h1 => ?_, fun _ _ => ⟨?_, ?_⟩⟩
        · rcases h1 with h1 | h1
          · rw [hres] at h1
            exact absurd h1 (by simp)
          · exact absurd h1 hnc
        · rw [hget]
          congr 1
          exact (map_eq_of_forall₂ (forIncludes_trees incs _ _ _ hloop)
            (fun a b hab => by
              obtain ⟨s, q, c, s1, hcall⟩ := hab
              exact (printDependencyTree_root hcall).1)).symm
        · intro c hc
          obtain ⟨inc, _, s, q, c', s1, hcall⟩ := forIncludes_tree_of_mem hloop hc
          obtain ⟨h1, h2, h3, _⟩ := printDependencyTree_root hcall
          change c.parentPath = findIncludeParentPath fs c.sourceFile _ L
          rw [h2, h1]
          exact h3
    · rcases hcase with ⟨_, hnil, _⟩ | ⟨_, _, incs, _, hloop⟩
      · subst hnil
        simp [CallTree.nodesOfList] at hn
      · obtain ⟨u, hu, hnu⟩ := mem_nodesOfList hn
        obtain ⟨inc, _, s, q, c, s1, hcall⟩ := forIncludes_tree_of_mem hloop hu
        exact ih _ _ _ _ _ _ _ _ _ hcall n hnu

/-! ## Termination -/

open Scenario

theorem resolve_append (disk : Disk) :
    ∀ (a b cur : List String),
      Disk.resolve disk cur (a ++ b) =
        (Disk.resolve disk cur a).bind (fun c => Disk.resolve disk c b) := by
  intro a
  induction a with
  | nil => intro b cur; simp [Disk.resolve]
  | cons n rest ih =>
    intro b cur
    simp only [List.cons_append, Disk.resolve]
    by_cases h1 : Disk.isDirectory disk cur = true
    · by_cases h2 : n = "."
      · simp [h1, h2, ih]
      · by_cases h3 : n = ".."
        · simp [h1, h3, ih]
        · simp [h1, h2, h3, ih]
    · simp [h1]

theorem resolve_loopNames (k : Nat) :
    Disk.resolve loopDisk [] (loopNames k) = some ["proj", "sub"] := by
  induction k with
  | zero => decide
  | succ k ih =>
    rw [loopNames, resolve_append, ih]
    decide

theorem length_loopNames (k : Nat) : (loopNames k).length = 2 * k + 2 := by
  induction k with
  | zero => rfl
  | succ k ih => simp [loopNames, ih]; omega

theorem locate_loop (k : Nat) :
    Disk.locate loopDisk ["proj"] ((⟨true, loopNames k⟩ : Path).join loopInclude.path) =
      some (["proj", "sub", "a.hpp"], "#include \"../sub/a.hpp\"\n") := by
  have h : ((⟨true, loopNames k⟩ : Path).join loopInclude.path) =
      ⟨true, loopNames k ++ ["..", "sub", "a.hpp"]⟩ := rfl
  rw [h]
  unfold Disk.locate
  simp only [if_true]
  rw [resolve_append, resolve_loopNames]
  decide

theorem findIncludeParentPath_loop (k : Nat) :
    findIncludeParentPath (fileSystem loopDisk) loopInclude ⟨true, loopNames k⟩ [] =
      ⟨true, loopNames k⟩ := by
  have h : (fileSystem loopDisk).isRegularFile
      ((⟨true, loopNames k⟩ : Path).join loopInclude.path) = true := by
    show (Disk.locate loopDisk ["proj"] _).isSome = true
    rw [locate_loop]
    rfl
  unfold findIncludeParentPath
  rw [if_pos ⟨rfl, h⟩]

theorem getIncludes_loop (k : Nat) :
    getIncludes (fileSystem loopDisk) ((⟨true, loopNames k⟩ : Path).join loopInclude.path) =
      some [loopInclude] := by
  show Option.map includesOfText ((Disk.locate loopDisk ["proj"] _).map _) = _
  rw [locate_loop]
  decide

/-- From any of the directories `/proj/sub/../sub/…`, walking `"../sub/a.hpp"` exhausts every
amount of fuel: each level resolves the reference to a directory one `../sub` longer than any
in the chain, so no pair ever repeats. -/
theorem printDependencyTree_loop_diverges :
    ∀ (fuel k : Nat) (chain : List CounterKey) (depth : Nat) (st : Effects),
      (∀ e ∈ chain, e.2.names.length < (loopNames k).length) →
      printDependencyTree (fileSystem loopDisk) [] fuel loopInclude ⟨true, loopNames k⟩ chain
        depth st = none := by
  intro fuel
  induction fuel with
  | zero => intro k chain depth st _; rfl
  | succ fuel ih =>
    intro k chain depth st hchain
    have hnot : (loopInclude.path, (⟨true, loopNames k⟩ : Path)) ∉ chain := by
      intro hmem
      exact Nat.lt_irrefl _ (hchain _ hmem)
    have hdir : ((⟨true, loopNames k⟩ : Path).join loopInclude.path).parentPath =
        ⟨true, loopNames (k + 1)⟩ := by
      show (⟨true, (loopNames k ++ ["..", "sub", "a.hpp"]).dropLast⟩ : Path) = _
      rw [List.dropLast_append_of_ne_nil _ (by simp)]
      rfl
    have hnext := ih (k + 1) ((loopInclude.path, ⟨true, loopNames k⟩) :: chain)
      ((depth + 2) % depthModulus)
      { st with
        output := st.output ++ [recordOf loopInclude ⟨true, loopNames k⟩ false depth]
        opened := st.opened ++ [(⟨true, loopNames k⟩ : Path).join loopInclude.path] }
      (by
        intro e he
        simp only [List.mem_cons] at he
        rcases he with he | he
        · subst he
          simp [length_loopNames]
        · have := hchain e he
          simp only [length_loopNames] at this ⊢
          omega)
    unfold printDependencyTree
    simp only [findIncludeParentPath_loop, hnot, decide_False, Bool.false_eq_true, if_false,
      getIncludes_loop, hdir]
    have hne : (!(⟨true, loopNames k⟩ : Path).isEmpty && !false) = true := rfl
    rw [if_pos hne]
    simp only [forIncludes]
    have hrec : recordOf loopInclude ⟨true, loopNames k⟩ false depth =
        ⟨loopInclude.path, depth, !(⟨true, loopNames k⟩ : Path).isEmpty, false,
          if loopInclude.path.isRelative = true then none else some ⟨true, loopNames k⟩⟩ := rfl
    rw [hrec] at hnext
    rw [hnext]

/-- The loop returns (or throws) when every call does. -/
theorem forIncludes_isSome {call : Include → Effects → Option Outcome} :
    ∀ (incs : List Include), (∀ inc ∈ incs, ∀ s, ∃ o, call inc s = some o) →
      ∀ st, ∃ o, forIncludes call incs st = some o := by
  intro incs
  induction incs with
  | nil => intro _ st; exact ⟨_, rfl⟩
  | cons inc more ih =>
    intro h st
    obtain ⟨o, ho⟩ := h inc (by simp) st
    have hmore := ih (fun i hi s => h i (by simp [hi]) s)
    unfold forIncludes
    rw [ho]
    cases o with
    | thrown st1 => exact ⟨_, rfl⟩
    | returned p ch t st1 =>
      dsimp only
      obtain ⟨o2, ho2⟩ := hmore
        { st1 with includeCounter := addAt (inc.path, p) 1 st1.includeCounter }
      rw [ho2]
      cases o2 with
      | thrown st3 => exact ⟨_, rfl⟩
      | done trees st3 => exact ⟨_, rfl⟩

theorem length_filter_cons {α : Type} (q : α → Bool) (a : α) (l : List α) :
    (List.filter q (a :: l)).length = (if q a = true then 1 else 0) + (List.filter q l).length := by
  by_cases h : q a = true
  · rw [List.filter_cons_of_pos h, if_pos h, List.length_cons, Nat.add_comm]
  · rw [List.filter_cons_of_neg h, if_neg h, Nat.zero_add]

theorem length_filter_not_mem_le (U : List CounterKey) (k : CounterKey)
    (chain : List CounterKey) :
    (U.filter (fun u => decide (u ∉ k :: chain))).length ≤
      (U.filter (fun u => decide (u ∉ chain))).length := by
  induction U with
  | nil => simp
  | cons u rest ih =>
    rw [length_filter_cons, length_filter_cons]
    by_cases h1 : u ∈ chain
    · have h2 : u ∈ k :: chain := List.mem_cons_of_mem _ h1
      have e1 : ¬ decide (u ∉ k :: chain) = true := fun h => (of_decide_eq_true h) h2
      have e2 : ¬ decide (u ∉ chain) = true := fun h => (of_decide_eq_true h) h1
      rw [if_neg e1, if_neg e2]
      omega
    · have e2 : decide (u ∉ chain) = true := decide_eq_true h1
      rw [if_pos e2]
      split <;> omega

theorem length_filter_not_mem_lt {U : List CounterKey} {k : CounterKey}
    {chain : List CounterKey} (hk : k ∈ U) (hc : k ∉ chain) :
    (U.filter (fun u => decide (u ∉ k :: chain))).length <
      (U.filter (fun u => decide (u ∉ chain))).length := by
  induction U with
  | nil => simp at hk
  | cons u rest ih =>
    rw [length_filter_cons, length_filter_cons]
    by_cases h2 : u = k
    · subst h2
      have hle := length_filter_not_mem_le rest u chain
      have e1 : ¬ decide (u ∉ u :: chain) = true :=
        fun h => (of_decide_eq_true h) (List.mem_cons_self _ _)
      have e2 : decide (u ∉ chain) = true := decide_eq_true hc
      rw [if_neg e1, if_pos e2]
      omega
    · have hk' : k ∈ rest := by
        rcases List.mem_cons.mp hk with hk | hk
        · exact absurd hk.symm h2
        · exact hk
      have hlt := ih hk'
      by_cases h1 : u ∈ chain
      · have h3 : u ∈ k :: chain := List.mem_cons_of_mem _ h1
        have e1 : ¬ decide (u ∉ k :: chain) = true := fun h => (of_decide_eq_true h) h3
        have e2 : ¬ decide (u ∉ chain) = true := fun h => (of_decide_eq_true h) h1
        rw [if_neg e1, if_neg e2]
        omega
      · have h3 : u ∉ k :: chain := by
          intro hmem
          rcases List.mem_cons.mp hmem with hmem | hmem
          · exact h2 hmem
          · exact h1 hmem
        have e1 : decide (u ∉ k :: chain) = true := decide_eq_true h3
        have e2 : decide (u ∉ chain) = true := decide_eq_true h1
        rw [if_pos e1, if_pos e2]
        omega

/-- Where cycle detection does bound the recursion: if the pairs the walker can form all lie
in a finite list `U` (it holds the pair of the reference walked and, with every pair, the pairs
of the includes of the file that pair names), the invocation ends, by return or by the
exception of `getIncludes`, within as many nested invocations as `U` has pairs outside the
chain, plus one. -/
theorem printDependencyTree_ends_of_finite_pairs (fs : FileSystem) (L : List Path)
    (U : List CounterKey)
    (closed : ∀ k ∈ U, ∀ incs, getIncludes fs (k.2.join k.1) = some incs →
      ∀ i ∈ incs, (i.path, findIncludeParentPath fs i (k.2.join k.1).parentPath L) ∈ U) :
    ∀ (fuel : Nat) (src : Include) (cur : Path) (chain : List CounterKey) (depth : Nat)
      (st : Effects),
      (src.path, findIncludeParentPath fs src cur L) ∈ U →
      (U.filter (fun u => decide (u ∉ chain))).length < fuel →
      ∃ o, printDependencyTree fs L fuel src cur chain depth st = some o := by
  intro fuel
  induction fuel with
  | zero => intro src cur chain depth st _ h; exact absurd h (Nat.not_lt_zero _)
  | succ fuel ih =>
    intro src cur chain depth st hU hfuel
    unfold printDependencyTree
    dsimp only
    by_cases hgo : (!(findIncludeParentPath fs src cur L).isEmpty &&
        !decide ((src.path, findIncludeParentPath fs src cur L) ∈ chain)) = true
    · rw [if_pos hgo]
      have hc : (src.path, findIncludeParentPath fs src cur L) ∉ chain := by
        simpa using (Bool.and_eq_true_iff.mp hgo).2
      cases hget : getIncludes fs ((findIncludeParentPath fs src cur L).join src.path) with
      | none => exact ⟨_, rfl⟩
      | some incs =>
        dsimp only
        have hcalls : ∀ inc ∈ incs, ∀ s, ∃ o,
            printDependencyTree fs L fuel inc
              ((findIncludeParentPath fs src cur L).join src.path).parentPath
              (if decide ((src.path, findIncludeParentPath fs src cur L) ∈ chain) = true then chain
                else (src.path, findIncludeParentPath fs src cur L) :: chain)
              ((depth + 2) % depthModulus) s = some o := by
          intro inc hinc s
          have hlt := length_filter_not_mem_lt hU hc
          simp only [hc, decide_False, Bool.false_eq_true, if_false]
          exact ih inc _ _ _ s (closed _ hU incs hget inc hinc) (by omega)
        obtain ⟨o, ho⟩ := forIncludes_isSome incs hcalls
          { includeCounter := st.includeCounter
            output := st.output ++
              [⟨src.path, depth, !(findIncludeParentPath fs src cur L).isEmpty,
                decide ((src.path, findIncludeParentPath fs src cur L) ∈ chain),
                if src.path.isRelative = true then none
                else some (findIncludeParentPath fs src cur L)⟩]
            opened := st.opened ++ [(findIncludeParentPath fs src cur L).join src.path] }
        rw [ho]
        cases o with
        | thrown st3 => exact ⟨_, rfl⟩
        | done trees st3 => exact ⟨_, rfl⟩
    · rw [if_neg hgo]
      exact ⟨_, rfl⟩

/-- C2 (failing input): the project whose only file `/proj/sub/a.hpp` holds the line
`#include "../sub/a.hpp"`. The constructor finds that file as the one root; walking it from
the project directory with an empty chain exhausts every amount of fuel, whatever the state,
and so does the run of the member function: the recursion depth has no bound. -/
theorem walker_diverges_on_dotdot_self_include :
    (Analyser.create (fileSystem loopDisk) proj).sourceFiles = [root ["proj", "sub", "a.hpp"]] ∧
    (∀ (fuel : Nat) (st : Effects),
      printDependencyTree (fileSystem loopDisk) [] fuel (root ["proj", "sub", "a.hpp"]) proj []
        0 st = none) ∧
    (∀ fuel : Nat,
      printDependencyTreeMember (fileSystem loopDisk) (Analyser.create (fileSystem loopDisk) proj)
        [] fuel = none) := by
  have hroots :
      (Analyser.create (fileSystem loopDisk) proj).sourceFiles =
        [root ["proj", "sub", "a.hpp"]] := by decide
  have hwalk : ∀ (fuel : Nat) (st : Effects),
      printDependencyTree (fileSystem loopDisk) [] fuel (root ["proj", "sub", "a.hpp"]) proj []
        0 st = none := by
    intro fuel st
    cases fuel with
    | zero => rfl
    | succ fuel =>
      have hfind : findIncludeParentPath (fileSystem loopDisk) (root ["proj", "sub", "a.hpp"])
          proj [] = proj := by decide
      have hget : getIncludes (fileSystem loopDisk)
          (proj.join (root ["proj", "sub", "a.hpp"]).path) = some [loopInclude] := by decide
      have hdir : (proj.join (root ["proj", "sub", "a.hpp"]).path).parentPath =
          ⟨true, loopNames 0⟩ := by decide
      unfold printDependencyTree
      simp only [hfind, hget, hdir, List.not_mem_nil, decide_False, Bool.false_eq_true, if_false]
      have hne : (!proj.isEmpty && !false) = true := rfl
      rw [if_pos hne]
      simp only [forIncludes]
      rw [printDependencyTree_loop_diverges fuel 0 _ _ _ (by
        intro e he
        simp only [List.mem_singleton] at he
        subst he
        decide)]
  refine ⟨hroots, hwalk, ?_⟩
  intro fuel
  unfold printDependencyTreeMember
  rw [hroots]
  simp only [forSourceFiles]
  rw [show (Analyser.create (fileSystem loopDisk) proj).path = proj from rfl, hwalk]

/-! ## Cycle marks -/

/-- C3: in a traversal started with an empty inclusion chain, a node of the tree carries the
cycle mark if and only if one of its proper ancestors in that tree has the same
(referencedPath, resolvedParentDirectory) pair; nodes of sibling subtrees play no part. The
mark is really set and the walk really ends: an invocation whose pair is in the chain it is
given returns, with any fuel, a childless node that carries the mark; a walk whose reachable
pairs lie in a finite list `U` ends within `U.length + 1` nested invocations, cycles included;
and on the mutual inclusion of `a.hpp` and `b.hpp` the walk of root `a.hpp` returns a tree
whose last node repeats the pair `(b.hpp, /proj)` of its grandparent and is the one marked
node. In the diamond (root `a.hpp` includes `b.hpp` and `d.hpp`, both of which include
`c.hpp`, resolved to `/proj` both times) neither `c.hpp` node is marked and the count of
`c.hpp` goes from 0 to 2. -/
theorem cycle_mark_iff_proper_ancestor_pair :
    (∀ (fs : FileSystem) (L : List Path) (fuel : Nat) (src : Include) (cur : Path) (depth : Nat)
        (st st' : Effects) (p : Path) (ch : List CounterKey) (t : CallTree),
        printDependencyTree fs L fuel src cur [] depth st = some (Outcome.returned p ch t st') →
        ∀ x ∈ CallTree.withAncestors [] t, (x.1.cycle = true ↔ x.1.key ∈ x.2)) ∧
    (∀ (fs : FileSystem) (L : List Path) (fuel : Nat) (src : Include) (cur : Path)
        (chain : List CounterKey) (depth : Nat) (st : Effects),
        (src.path, findIncludeParentPath fs src cur L) ∈ chain →
        ∃ st', printDependencyTree fs L (fuel + 1) src cur chain depth st =
          some (Outcome.returned (findIncludeParentPath fs src cur L) chain
            (CallTree.node src (findIncludeParentPath fs src cur L) true []) st')) ∧
    (∀ (fs : FileSystem) (L : List Path) (U : List CounterKey) (src : Include) (cur : Path)
        (depth : Nat) (st : Effects),
        (∀ k ∈ U, ∀ incs, getIncludes fs (k.2.join k.1) = some incs →
          ∀ i ∈ incs, (i.path, findIncludeParentPath fs i (k.2.join k.1).parentPath L) ∈ U) →
        (src.path, findIncludeParentPath fs src cur L) ∈ U →
        ∃ o, printDependencyTree fs L (U.length + 1) src cur [] depth st = some o) ∧
    printDependencyTree (fileSystem mutualDisk) [] 4 (root ["proj", "a.hpp"]) proj [] 0
        ⟨[(rootKey proj (root ["proj", "a.hpp"]), 0)], [], []⟩ =
      some (Outcome.returned proj [((root ["proj", "a.hpp"]).path, proj)] mutualTree
        mutualEffects) ∧
    (CallTree.withAncestors [] mutualTree).map (fun x => (x.1.key, x.1.cycle, x.2)) =
      [(((root ["proj", "a.hpp"]).path, proj), false, []),
        (((quoted ["b.hpp"]).path, proj), false, [((root ["proj", "a.hpp"]).path, proj)]),
        (((quoted ["a.hpp"]).path, proj), false,
          [((quoted ["b.hpp"]).path, proj), ((root ["proj", "a.hpp"]).path, proj)]),
        (((quoted ["b.hpp"]).path, proj), true,
          [((quoted ["a.hpp"]).path, proj), ((quoted ["b.hpp"]).path, proj),
            ((root ["proj", "a.hpp"]).path, proj)])] ∧
    printDependencyTree (fileSystem diamondDisk) [] 3 (root ["proj", "a.hpp"]) proj [] 0
        ⟨[(rootKey proj (root ["proj", "a.hpp"]), 0)], [], []⟩ =
      some (Outcome.returned proj [((root ["proj", "a.hpp"]).path, proj)] diamondTree
        diamondEffects) ∧
    (∀ n ∈ diamondTree.nodes, n.cycle = false) ∧
    countAt ((quoted ["c.hpp"]).path, proj) [(rootKey proj (root ["proj", "a.hpp"]), 0)] = 0 ∧
    countAt ((quoted ["c.hpp"]).path, proj) diamondEffects.includeCounter = 2 := by
  refine ⟨?_, ?_, ?_, by rfl, by decide, by rfl, by decide, by decide, by decide⟩
  · intro fs L fuel src cur depth st st' p ch t h
    exact printDependencyTree_cycle_law fs L fuel src cur [] depth st st' p ch t h
  · intro fs L fuel src cur chain depth st h
    refine ⟨{ st with
      output := st.output ++
        [recordOf src (findIncludeParentPath fs src cur L) true depth] }, ?_⟩
    unfold printDependencyTree
    simp [h, recordOf]
  · intro fs L U src cur depth st hclosed hU
    exact printDependencyTree_ends_of_finite_pairs fs L U hclosed (U.length + 1) src cur []
      depth st hU (Nat.lt_succ_of_le (List.length_filter_le _ _))

/-- C3 at a concrete, cyclic input: the walk of root `a.hpp` over the mutual inclusion of
`a.hpp` and `b.hpp` returns; in its tree the mark sits exactly on the nodes whose pair is
among those of their proper ancestors, and there is such a node: the second `b.hpp`. -/
theorem cycle_mark_iff_proper_ancestor_pair_witness :
    printDependencyTree (fileSystem mutualDisk) [] 4 (root ["proj", "a.hpp"]) proj [] 0
        ⟨[(rootKey proj (root ["proj", "a.hpp"]), 0)], [], []⟩ =
      some (Outcome.returned proj [((root ["proj", "a.hpp"]).path, proj)] mutualTree
        mutualEffects) ∧
    (∀ x ∈ CallTree.withAncestors [] mutualTree, (x.1.cycle = true ↔ x.1.key ∈ x.2)) ∧
    (∃ x ∈ CallTree.withAncestors [] mutualTree,
      x.1.cycle = true ∧ x.1.key ∈ x.2 ∧ x.1.key = ((quoted ["b.hpp"]).path, proj)) ∧
    (∃ x ∈ CallTree.withAncestors [] mutualTree, x.1.cycle = false ∧ x.1.key ∉ x.2) :=
  have h : printDependencyTree (fileSystem mutualDisk) [] 4 (root ["proj", "a.hpp"]) proj [] 0
        ⟨[(rootKey proj (root ["proj", "a.hpp"]), 0)], [], []⟩ =
      some (Outcome.returned proj [((root ["proj", "a.hpp"]).path, proj)] mutualTree
        mutualEffects) := by rfl
  ⟨h, cycle_mark_iff_proper_ancestor_pair.1 _ _ _ _ _ _ _ _ _ _ _ h,
    ⟨(CallTree.node (quoted ["b.hpp"]) proj true [],
        [((quoted ["a.hpp"]).path, proj), ((quoted ["b.hpp"]).path, proj),
          ((root ["proj", "a.hpp"]).path, proj)]),
      by simp [mutualTree, CallTree.withAncestors, CallTree.withAncestorsOfList],
      rfl, by decide, rfl⟩,
    ⟨(mutualTree, []), by simp [mutualTree, CallTree.withAncestors], rfl, by simp⟩⟩

/-! ## The Edge Count Table after a run -/

theorem childNodeCount_eq_zero {k : CounterKey} {trees : List CallTree}
    (h : ∀ t ∈ trees, ∀ n ∈ t.nonRootNodes, n.key ≠ k) : childNodeCount k trees = 0 := by
  unfold childNodeCount
  apply List.sum_eq_zero
  intro x hx
  obtain ⟨t, ht, rfl⟩ := List.mem_map.mp hx
  unfold CallTree.nonRootCount
  rw [List.length_eq_zero, List.filter_eq_nil_iff]
  intro n hn
  simpa using h t ht n hn

/-- The final table of a completed run, entry by entry. -/
theorem printDependencyTreeMember_counter {fs : FileSystem} {self : Analyser}
    {L : List Path} {fuel : Nat} {trees : List CallTree} {st : Effects}
    {report : List (Path × Nat)}
    (h : printDependencyTreeMember fs self L fuel =
      some (RunOutcome.completed trees st report)) :
    trees.map CallTree.sourceFile = self.sourceFiles ∧
    ∀ k, entryAt k st.includeCounter =
      if k ∈ self.sourceFiles.map (rootKey self.path) then some (childNodeCount k trees)
      else raised none (childNodeCount k trees) := by
  unfold printDependencyTreeMember at h
  split at h
  · exact absurd h (by simp)
  · exact absurd h (by simp)
  · rename_i ts st1 hloop
    simp only [Option.some.injEq, RunOutcome.completed.injEq] at h
    obtain ⟨h1, h2, _⟩ := h
    subst h1 h2
    obtain ⟨hroots, hcount⟩ := forSourceFiles_counter fs self.path L fuel _ _ _ _ hloop
    refine ⟨hroots, fun k => ?_⟩
    rw [hcount k]
    simp [entryAt]

/-- C4: after a complete run over all roots, the trees are those of the roots in order, and for
every key `k` the value of the Edge Count Table at `k` is the number of non-root nodes, over
the trees of all roots, whose reference and resolution result make up `k`: every child node
counts once, whatever its status, and the table is carried from one root to the next. With
roots `a.hpp` and `c.hpp` that each hold only `#include "shared.hpp"`, and `shared.hpp`
without directive, the run completes and the count of `shared.hpp` is 2. -/
theorem edge_count_equals_child_nodes :
    (∀ (fs : FileSystem) (self : Analyser) (L : List Path) (fuel : Nat) (trees : List CallTree)
        (st : Effects) (report : List (Path × Nat)),
        printDependencyTreeMember fs self L fuel = some (RunOutcome.completed trees st report) →
        trees.map CallTree.sourceFile = self.sourceFiles ∧
        ∀ k, countAt k st.includeCounter = childNodeCount k trees) ∧
    (∃ trees st report,
      printDependencyTreeMember (fileSystem sharedDisk)
          (Analyser.create (fileSystem sharedDisk) proj) [] 2 =
        some (RunOutcome.completed trees st report) ∧
      countAt ((quoted ["shared.hpp"]).path, proj) st.includeCounter = 2) := by
  constructor
  · intro fs self L fuel trees st report h
    obtain ⟨hroots, hcount⟩ := printDependencyTreeMember_counter h
    refine ⟨hroots, fun k => ?_⟩
    unfold countAt
    rw [hcount k]
    by_cases hk : k ∈ self.sourceFiles.map (rootKey self.path)
    · simp [hk]
    · by_cases hz : childNodeCount k trees = 0 <;> simp [hk, raised, hz]
  · exact ⟨_, _, _, by rfl, by rfl⟩

/-- C4 at a concrete input: the run over the project with `a.hpp`, `c.hpp` and `shared.hpp`
completes, and its table agrees with the node counts of its trees at every key. -/
theorem edge_count_equals_child_nodes_witness :
    printDependencyTreeMember (fileSystem sharedDisk)
        (Analyser.create (fileSystem sharedDisk) proj) [] 2 =
      some (RunOutcome.completed sharedTrees sharedEffects sharedReport) ∧
    sharedTrees.map CallTree.sourceFile =
      (Analyser.create (fileSystem sharedDisk) proj).sourceFiles ∧
    ∀ k, countAt k sharedEffects.includeCounter = childNodeCount k sharedTrees :=
  have h : printDependencyTreeMember (fileSystem sharedDisk)
        (Analyser.create (fileSystem sharedDisk) proj) [] 2 =
      some (RunOutcome.completed sharedTrees sharedEffects sharedReport) := by rfl
  ⟨h, edge_count_equals_child_nodes.1 _ _ _ _ _ _ _ h⟩

/-! ## Mutual inclusion and self-inclusion -/

/-- C5 (failing input): the project with `a.hpp` holding `#include "b.hpp"` and `b.hpp` holding
`#include "a.hpp"`. The constructor stores the roots under their absolute paths, so the walk
of root `a.hpp`, as the member function starts it, puts the pair `(/proj/a.hpp, /proj)` into
the chain; the include `"a.hpp"` met below `b.hpp` forms the pair `(a.hpp, /proj)`, which is
new, and is expanded once more. The tree has four nodes, the cycle mark sits on the second
`b.hpp`, and the counts added are 1 for `a.hpp` and 2 for `b.hpp`. -/
theorem mutual_inclusion_root_walk :
    (Analyser.create (fileSystem mutualDisk) proj).sourceFiles =
      [root ["proj", "a.hpp"], root ["proj", "b.hpp"]] ∧
    printDependencyTree (fileSystem mutualDisk) [] 4 (root ["proj", "a.hpp"]) proj [] 0
        ⟨[(rootKey proj (root ["proj", "a.hpp"]), 0)], [], []⟩ =
      some (Outcome.returned proj [((root ["proj", "a.hpp"]).path, proj)]
        (CallTree.node (root ["proj", "a.hpp"]) proj false
          [CallTree.node (quoted ["b.hpp"]) proj false
            [CallTree.node (quoted ["a.hpp"]) proj false
              [CallTree.node (quoted ["b.hpp"]) proj true []]]])
        ⟨[(((quoted ["a.hpp"]).path, proj), 1), (((quoted ["b.hpp"]).path, proj), 2)],
          [⟨(root ["proj", "a.hpp"]).path, 0, true, false, some proj⟩,
            ⟨(quoted ["b.hpp"]).path, 2, true, false, none⟩,
            ⟨(quoted ["a.hpp"]).path, 4, true, false, none⟩,
            ⟨(quoted ["b.hpp"]).path, 6, true, true, none⟩],
          [(root ["proj", "a.hpp"]).path, (root ["proj", "b.hpp"]).path,
            (root ["proj", "a.hpp"]).path]⟩) := by
  exact ⟨by decide, by rfl⟩

/-- C6 (failing input): the project whose only file `a.hpp` holds `#include "a.hpp"`. The run
completes with one tree of three nodes: the root `/proj/a.hpp`, the child `a.hpp` resolved and
expanded (its pair `(a.hpp, /proj)` differs from the pair `(/proj/a.hpp, /proj)` of the root),
and the grandchild `a.hpp` marked as a cycle. The contents of `a.hpp` are read twice and its
count is 2. -/
theorem self_inclusion_run :
    (Analyser.create (fileSystem selfDisk) proj).sourceFiles = [root ["proj", "a.hpp"]] ∧
    printDependencyTreeMember (fileSystem selfDisk) (Analyser.create (fileSystem selfDisk) proj)
        [] 3 =
      some (RunOutcome.completed
        [CallTree.node (root ["proj", "a.hpp"]) proj false
          [CallTree.node (quoted ["a.hpp"]) proj false
            [CallTree.node (quoted ["a.hpp"]) proj true []]]]
        ⟨[(((quoted ["a.hpp"]).path, proj), 2)],
          [⟨(root ["proj", "a.hpp"]).path, 0, true, false, some proj⟩,
            ⟨(quoted ["a.hpp"]).path, 2, true, false, none⟩,
            ⟨(quoted ["a.hpp"]).path, 4, true, true, none⟩],
          [(root ["proj", "a.hpp"]).path, (root ["proj", "a.hpp"]).path]⟩
        [((quoted ["a.hpp"]).path, 2)]) := by
  exact ⟨by decide, by rfl⟩

/-! ## Invocations that stop at once -/

/-- C7: when the pair (referencedPath, resolved parent directory) is already in the chain, an
invocation (with any fuel, even none left for a recursive call) returns the resolved parent
directory; its call tree is the single node, marked as a cycle, without children; the chain
is unchanged; the new state differs from the old one only in the one record printed, so the
Edge Count Table and the list of files read are unchanged. -/
theorem cycle_invocation_only_prints (fs : FileSystem) (L : List Path) (fuel : Nat)
    (src : Include) (cur : Path) (chain : List CounterKey) (depth : Nat) (st : Effects)
    (h : (src.path, findIncludeParentPath fs src cur L) ∈ chain) :
    printDependencyTree fs L (fuel + 1) src cur chain depth st =
      some (Outcome.returned (findIncludeParentPath fs src cur L) chain
        (CallTree.node src (findIncludeParentPath fs src cur L) true [])
        { st with
          output := st.output ++
            [⟨src.path, depth, !(findIncludeParentPath fs src cur L).isEmpty, true,
              if src.path.isRelative then none
              else some (findIncludeParentPath fs src cur L)⟩] }) := by
  unfold printDependencyTree
  simp [h]

/-- C7 at a concrete input: `"a.hpp"` walked from `/proj` on the self-including project, with
the pair `(a.hpp, /proj)` already in the chain. -/
theorem cycle_invocation_only_prints_witness :
    ((quoted ["a.hpp"]).path,
        findIncludeParentPath (fileSystem selfDisk) (quoted ["a.hpp"]) proj []) ∈
      [((quoted ["a.hpp"]).path, proj)] ∧
    printDependencyTree (fileSystem selfDisk) [] 1 (quoted ["a.hpp"]) proj
        [((quoted ["a.hpp"]).path, proj)] 4 start =
      some (Outcome.returned proj [((quoted ["a.hpp"]).path, proj)]
        (CallTree.node (quoted ["a.hpp"]) proj true [])
        ⟨[], [⟨(quoted ["a.hpp"]).path, 4, true, true, none⟩], []⟩) :=
  ⟨by decide,
    cycle_invocation_only_prints (fileSystem selfDisk) [] 0 (quoted ["a.hpp"]) proj
      [((quoted ["a.hpp"]).path, proj)] 4 start (by decide)⟩

theorem searchIncludePaths_eq_empty {fs : FileSystem} {sourcePath : Path} :
    ∀ {L : List Path}, (∀ s ∈ L, fs.isRegularFile (s.join sourcePath) = false) →
      searchIncludePaths fs sourcePath L = Path.empty := by
  intro L
  induction L with
  | nil => intro _; rfl
  | cons s more ih =>
    intro h
    have h1 : fs.isRegularFile (s.join sourcePath) = false := h s (by simp)
    simp only [searchIncludePaths, h1, Bool.false_eq_true, if_false]
    exact ih (fun t ht => h t (by simp [ht]))

theorem findIncludeParentPath_eq_empty {fs : FileSystem} {src : Include} {cur : Path}
    {L : List Path}
    (h1 : src.type = IncludeType.q_char → fs.isRegularFile (cur.join src.path) = false)
    (h2 : ∀ s ∈ L, fs.isRegularFile (s.join src.path) = false) :
    findIncludeParentPath fs src cur L = Path.empty := by
  unfold findIncludeParentPath
  rw [if_neg]
  · exact searchIncludePaths_eq_empty h2
  · rintro ⟨hq, hr⟩
    rw [h1 hq] at hr
    exact absurd hr (by simp)

theorem countAt_addAt_one (k k' : CounterKey) (c : IncludeCounter) :
    countAt k (addAt k' 1 c) = countAt k c + (if k = k' then 1 else 0) := by
  unfold countAt
  rw [entryAt_addAt]
  by_cases h : k' = k
  · subst h
    simp
  · have h' : ¬ k = k' := fun e => h e.symm
    simp [h, h']

/-- C8: a reference that no candidate directory contains (the directory of the including file
for a quoted reference, then the search directories) makes the invocation return the empty
path with a call tree of one node without children, printed as unresolved; the state changes
only by that record, so no file is read and the Edge Count Table is unchanged. The loop of the
including file then goes on with the table raised by exactly one at (referencedPath, empty)
and unchanged at every other key. -/
theorem unresolved_reference_only_prints (fs : FileSystem) (L : List Path) (fuel : Nat)
    (src : Include) (cur : Path) (chain : List CounterKey) (depth : Nat) (st : Effects)
    (more : List Include)
    (h1 : src.type = IncludeType.q_char → fs.isRegularFile (cur.join src.path) = false)
    (h2 : ∀ s ∈ L, fs.isRegularFile (s.join src.path) = false) :
    printDependencyTree fs L (fuel + 1) src cur chain depth st =
        some (Outcome.returned Path.empty
          (if (src.path, Path.empty) ∈ chain then chain else (src.path, Path.empty) :: chain)
          (CallTree.node src Path.empty (decide ((src.path, Path.empty) ∈ chain)) [])
          { st with
            output := st.output ++
              [⟨src.path, depth, false, decide ((src.path, Path.empty) ∈ chain),
                if src.path.isRelative then none else some Path.empty⟩] }) ∧
      forIncludes (fun inc s => printDependencyTree fs L (fuel + 1) inc cur chain depth s)
          (src :: more) st =
        (match
          forIncludes (fun inc s => printDependencyTree fs L (fuel + 1) inc cur chain depth s)
            more
            { st with
              includeCounter := addAt (src.path, Path.empty) 1 st.includeCounter
              output := st.output ++
                [⟨src.path, depth, false, decide ((src.path, Path.empty) ∈ chain),
                  if src.path.isRelative then none else some Path.empty⟩] } with
        | none => none
        | some (LoopOutcome.thrown st3) => some (LoopOutcome.thrown st3)
        | some (LoopOutcome.done trees st3) =>
          some (LoopOutcome.done
            (CallTree.node src Path.empty (decide ((src.path, Path.empty) ∈ chain)) [] :: trees)
            st3)) ∧
      ∀ k, countAt k (addAt (src.path, Path.empty) 1 st.includeCounter) =
        countAt k st.includeCounter + (if k = (src.path, Path.empty) then 1 else 0) := by
  have hfind := findIncludeParentPath_eq_empty h1 h2
  have hcall : printDependencyTree fs L (fuel + 1) src cur chain depth st =
      some (Outcome.returned Path.empty
        (if (src.path, Path.empty) ∈ chain then chain else (src.path, Path.empty) :: chain)
        (CallTree.node src Path.empty (decide ((src.path, Path.empty) ∈ chain)) [])
        { st with
          output := st.output ++
            [⟨src.path, depth, false, decide ((src.path, Path.empty) ∈ chain),
              if src.path.isRelative then none else some Path.empty⟩] }) := by
    unfold printDependencyTree
    simp [hfind, Path.empty, Path.isEmpty]
  refine ⟨hcall, ?_, fun k => countAt_addAt_one k _ _⟩
  rw [forIncludes]
  simp only [hcall]

/-- C8 at a concrete input: `<lib.hpp>` met in `/proj/a.cpp`, with `lib.hpp` nowhere on the
disk and `/inc` as the only search directory. -/
theorem unresolved_reference_only_prints_witness :
    printDependencyTree (fileSystem missingDisk) [⟨true, ["inc"]⟩] 1
        ⟨⟨false, ["lib.hpp"]⟩, IncludeType.h_char⟩ proj [((root ["proj", "a.cpp"]).path, proj)]
        2 start =
      some (Outcome.returned Path.empty
        [(⟨false, ["lib.hpp"]⟩, Path.empty), ((root ["proj", "a.cpp"]).path, proj)]
        (CallTree.node ⟨⟨false, ["lib.hpp"]⟩, IncludeType.h_char⟩ Path.empty false [])
        ⟨[], [⟨⟨false, ["lib.hpp"]⟩, 2, false, false, none⟩], []⟩) :=
  (unresolved_reference_only_prints (fileSystem missingDisk) [⟨true, ["inc"]⟩] 0
    ⟨⟨false, ["lib.hpp"]⟩, IncludeType.h_char⟩ proj [((root ["proj", "a.cpp"]).path, proj)]
    2 start [] (by decide) (by decide)).1

/-! ## The base directory of child references -/

/-- C9: in the call tree of an invocation that returns, every node that is resolved and no
cycle has one child per include of its file, in order, and each child is resolved by the Path
Resolver with base directory `(parentPath / path).parent_path()`, the directory that contains
the included file, whatever the project root. When root `sub/a.hpp` holds `#include "b.hpp"`
and `b.hpp` exists both in `sub/` and in the search directory `/inc`, the child `b.hpp`
resolves to `/proj/sub`. -/
theorem children_resolved_from_directory_of_file :
    (∀ (fs : FileSystem) (L : List Path) (fuel : Nat) (src : Include) (cur : Path)
        (chain : List CounterKey) (depth : Nat) (st st' : Effects) (p : Path)
        (ch : List CounterKey) (t : CallTree),
        printDependencyTree fs L fuel src cur chain depth st =
          some (Outcome.returned p ch t st') →
        ∀ n ∈ t.nodes, n.parentPath.isEmpty = false → n.cycle = false →
          getIncludes fs (n.parentPath.join n.sourceFile.path) =
              some (n.children.map CallTree.sourceFile) ∧
            ∀ c ∈ n.children,
              c.parentPath =
                findIncludeParentPath fs c.sourceFile
                  (n.parentPath.join n.sourceFile.path).parentPath L) ∧
    printDependencyTree (fileSystem nestedDisk) [⟨true, ["inc"]⟩] 2
        (root ["proj", "sub", "a.hpp"]) proj [] 0
        ⟨[(rootKey proj (root ["proj", "sub", "a.hpp"]), 0)], [], []⟩ =
      some (Outcome.returned proj [((root ["proj", "sub", "a.hpp"]).path, proj)] nestedTree
        nestedEffects) ∧
    (fileSystem nestedDisk).isRegularFile
        ((⟨true, ["inc"]⟩ : Path).join (quoted ["b.hpp"]).path) = true ∧
    nestedTree.children.map CallTree.parentPath = [⟨true, ["proj", "sub"]⟩] := by
  refine ⟨?_, by rfl, by decide, by decide⟩
  intro fs L fuel src cur chain depth st st' p ch t h n hn
  exact (printDependencyTree_children_law fs L fuel src cur chain depth st st' p ch t h n hn).2

/-- C9 at a concrete input: the children of the root node of the `sub/a.hpp` tree are the
includes of `/proj/sub/a.hpp`, each resolved from `/proj/sub`. -/
theorem children_resolved_from_directory_of_file_witness :
    nestedTree ∈ nestedTree.nodes ∧ nestedTree.parentPath.isEmpty = false ∧
    nestedTree.cycle = false ∧
    getIncludes (fileSystem nestedDisk) (nestedTree.parentPath.join nestedTree.sourceFile.path) =
      some (nestedTree.children.map CallTree.sourceFile) ∧
    ∀ c ∈ nestedTree.children,
      c.parentPath =
        findIncludeParentPath (fileSystem nestedDisk) c.sourceFile
          (nestedTree.parentPath.join nestedTree.sourceFile.path).parentPath [⟨true, ["inc"]⟩] :=
  have h : printDependencyTree (fileSystem nestedDisk) [⟨true, ["inc"]⟩] 2
        (root ["proj", "sub", "a.hpp"]) proj [] 0
        ⟨[(rootKey proj (root ["proj", "sub", "a.hpp"]), 0)], [], []⟩ =
      some (Outcome.returned proj [((root ["proj", "sub", "a.hpp"]).path, proj)] nestedTree
        nestedEffects) := by rfl
  have hn : nestedTree ∈ nestedTree.nodes := by rw [nodes_eq]; exact List.mem_cons_self _ _
  ⟨hn, rfl, rfl,
    children_resolved_from_directory_of_file.1 _ _ _ _ _ _ _ _ _ _ _ _ h nestedTree hn rfl rfl⟩

/-! ## Root coverage -/

/-- C10: after a run that completes, every root file `f` has an entry in the final Edge Count
Table under the key (path of `f` relative to the project root, project root); the entry holds
the number of child nodes with that key, hence 0 when no traversed child reference has it. -/
theorem root_entries_present (fs : FileSystem) (self : Analyser) (L : List Path) (fuel : Nat)
    (trees : List CallTree) (st : Effects) (report : List (Path × Nat))
    (h : printDependencyTreeMember fs self L fuel =
      some (RunOutcome.completed trees st report)) :
    ∀ f ∈ self.sourceFiles,
      entryAt (f.path.relativeTo self.path, self.path) st.includeCounter =
          some (childNodeCount (f.path.relativeTo self.path, self.path) trees) ∧
        ((∀ t ∈ trees, ∀ n ∈ t.nonRootNodes,
            n.key ≠ (f.path.relativeTo self.path, self.path)) →
          entryAt (f.path.relativeTo self.path, self.path) st.includeCounter = some 0) := by
  intro f hf
  obtain ⟨_, hcount⟩ := printDependencyTreeMember_counter h
  have hmem : (f.path.relativeTo self.path, self.path) ∈
      self.sourceFiles.map (rootKey self.path) :=
    List.mem_map.mpr ⟨f, hf, rfl⟩
  have hentry := hcount (f.path.relativeTo self.path, self.path)
  rw [if_pos hmem] at hentry
  refine ⟨hentry, fun hnone => ?_⟩
  rw [hentry, childNodeCount_eq_zero hnone]

/-- C10 at a concrete input: the run over the project with `a.hpp`, `c.hpp` and `shared.hpp`
completes; the roots `a.hpp` and `c.hpp`, included nowhere, have entries with value 0, and the
root `shared.hpp` has the entry with value 2. -/
theorem root_entries_present_witness :
    printDependencyTreeMember (fileSystem sharedDisk)
        (Analyser.create (fileSystem sharedDisk) proj) [] 2 =
      some (RunOutcome.completed sharedTrees sharedEffects sharedReport) ∧
    entryAt ((quoted ["a.hpp"]).path, proj) sharedEffects.includeCounter = some 0 ∧
    entryAt ((quoted ["c.hpp"]).path, proj) sharedEffects.includeCounter = some 0 ∧
    entryAt ((quoted ["shared.hpp"]).path, proj) sharedEffects.includeCounter = some 2 ∧
    ∀ f ∈ (Analyser.create (fileSystem sharedDisk) proj).sourceFiles,
      entryAt (f.path.relativeTo proj, proj) sharedEffects.includeCounter =
          some (childNodeCount (f.path.relativeTo proj, proj) sharedTrees) ∧
        ((∀ t ∈ sharedTrees, ∀ n ∈ t.nonRootNodes, n.key ≠ (f.path.relativeTo proj, proj)) →
          entryAt (f.path.relativeTo proj, proj) sharedEffects.includeCounter = some 0) :=
  have h : printDependencyTreeMember (fileSystem sharedDisk)
        (Analyser.create (fileSystem sharedDisk) proj) [] 2 =
      some (RunOutcome.completed sharedTrees sharedEffects sharedReport) := by rfl
  ⟨h, by decide, by decide, by decide,
    root_entries_present (fileSystem sharedDisk) (Analyser.create (fileSystem sharedDisk) proj)
      [] 2 sharedTrees sharedEffects sharedReport h⟩

/-! ## The order of the report -/

theorem lexLess_irrefl {α : Type} [DecidableEq α] {lt : α → α → Bool}
    (hirr : ∀ a, lt a a = false) : ∀ l : List α, lexLess lt l l = false := by
  intro l
  induction l with
  | nil => rfl
  | cons a as ih => simp [lexLess, hirr, ih]

theorem lexLess_trans {α : Type} [DecidableEq α] {lt : α → α → Bool}
    (htr : ∀ a b c, lt a b = true → lt b c = true → lt a c = true) :
    ∀ x y z : List α, lexLess lt x y = true → lexLess lt y z = true → lexLess lt x z = true := by
  intro x
  induction x with
  | nil =>
    intro y z h1 h2
    cases y with
    | nil => simp [lexLess] at h1
    | cons b bs =>
      cases z with
      | nil => simp [lexLess] at h2
      | cons c cs => rfl
  | cons a as ih =>
    intro y z h1 h2
    cases y with
    | nil => simp [lexLess] at h1
    | cons b bs =>
      cases z with
      | nil => simp [lexLess] at h2
      | cons c cs =>
        simp only [lexLess, Bool.or_eq_true, Bool.and_eq_true, decide_eq_true_eq] at h1 h2 ⊢
        rcases h1 with h1 | ⟨h1, h1'⟩
        · rcases h2 with h2 | ⟨h2, _⟩
          · exact Or.inl (htr _ _ _ h1 h2)
          · subst h2
            exact Or.inl h1
        · subst h1
          rcases h2 with h2 | ⟨h2, h2'⟩
          · exact Or.inl h2
          · exact Or.inr ⟨h2, ih _ _ h1' h2'⟩

theorem lexLess_total {α : Type} [DecidableEq α] {lt : α → α → Bool}
    (htot : ∀ a b, a ≠ b → lt a b = true ∨ lt b a = true) :
    ∀ x y : List α, x ≠ y → lexLess lt x y = true ∨ lexLess lt y x = true := by
  intro x
  induction x with
  | nil =>
    intro y h
    cases y with
    | nil => exact absurd rfl h
    | cons b bs => exact Or.inl rfl
  | cons a as ih =>
    intro y h
    cases y with
    | nil => exact Or.inr rfl
    | cons b bs =>
      simp only [lexLess, Bool.or_eq_true, Bool.and_eq_true, decide_eq_true_eq]
      by_cases hab : a = b
      · subst hab
        have hne : as ≠ bs := fun e => h (by rw [e])
        rcases ih bs hne with h1 | h1
        · exact Or.inl (Or.inr ⟨rfl, h1⟩)
        · exact Or.inr (Or.inr ⟨rfl, h1⟩)
      · rcases htot a b hab with h1 | h1
        · exact Or.inl (Or.inl h1)
        · exact Or.inr (Or.inl h1)

theorem char_eq_of_toNat_eq {a b : Char} (h : a.toNat = b.toNat) : a = b := by
  rw [← Char.ofNat_toNat a, ← Char.ofNat_toNat b, h]

theorem charsLess_eq_lexLess :
    ∀ a b : List Char, charsLess a b = lexLess (fun x y => decide (x.toNat < y.toNat)) a b := by
  intro a
  induction a with
  | nil => intro b; cases b <;> rfl
  | cons x xs ih =>
    intro b
    cases b with
    | nil => rfl
    | cons y ys =>
      by_cases h : x = y <;> simp [charsLess, lexLess, ih, h]

theorem charsLess_irrefl (a : List Char) : charsLess a a = false := by
  rw [charsLess_eq_lexLess]
  exact lexLess_irrefl (fun x => by simp) a

theorem charsLess_trans (a b c : List Char) (h1 : charsLess a b = true)
    (h2 : charsLess b c = true) : charsLess a c = true := by
  rw [charsLess_eq_lexLess] at h1 h2 ⊢
  exact lexLess_trans (fun x y z hxy hyz => by
    simp only [decide_eq_true_eq] at hxy hyz ⊢
    omega) a b c h1 h2

theorem charsLess_total (a b : List Char) (h : a ≠ b) :
    charsLess a b = true ∨ charsLess b a = true := by
  rw [charsLess_eq_lexLess, charsLess_eq_lexLess]
  exact lexLess_total (fun x y hxy => by
    simp only [decide_eq_true_eq]
    have hne : x.toNat ≠ y.toNat := fun e => hxy (char_eq_of_toNat_eq e)
    omega) a b h

theorem namesLess_eq_lexLess :
    ∀ a b : List String,
      namesLess a b = lexLess (fun x y => charsLess x.data y.data) a b := by
  intro a
  induction a with
  | nil => intro b; cases b <;> rfl
  | cons x xs ih =>
    intro b
    cases b with
    | nil => rfl
    | cons y ys =>
      by_cases h : x = y <;> simp [namesLess, lexLess, ih, h]

theorem namesLess_irrefl (a : List String) : namesLess a a = false := by
  rw [namesLess_eq_lexLess]
  exact lexLess_irrefl (fun x => charsLess_irrefl x.data) a

theorem namesLess_trans (a b c : List String) (h1 : namesLess a b = true)
    (h2 : namesLess b c = true) : namesLess a c = true := by
  rw [namesLess_eq_lexLess] at h1 h2 ⊢
  exact lexLess_trans (fun x y z => charsLess_trans x.data y.data z.data) a b c h1 h2

theorem namesLess_total (a b : List String) (h : a ≠ b) :
    namesLess a b = true ∨ namesLess b a = true := by
  rw [namesLess_eq_lexLess, namesLess_eq_lexLess]
  exact lexLess_total (fun x y hxy =>
    charsLess_total x.data y.data (fun e => hxy (String.ext e))) a b h

theorem pathLess_irrefl (p : Path) : pathLess p p = false := by
  cases p with
  | mk r n => cases r <;> simp [pathLess, namesLess_irrefl]

theorem pathLess_trans (p q r : Path) (h1 : pathLess p q = true) (h2 : pathLess q r = true) :
    pathLess p r = true := by
  obtain ⟨pr, pn⟩ := p
  obtain ⟨qr, qn⟩ := q
  obtain ⟨rr, rn⟩ := r
  cases pr <;> cases qr <;> cases rr <;> simp [pathLess] at h1 h2 ⊢ <;>
    exact namesLess_trans _ _ _ h1 h2

theorem pathLess_total (p q : Path) (h : p ≠ q) : pathLess p q = true ∨ pathLess q p = true := by
  obtain ⟨pr, pn⟩ := p
  obtain ⟨qr, qn⟩ := q
  cases pr <;> cases qr <;> simp [pathLess] <;>
    exact namesLess_total _ _ (fun e => h (by rw [e]))

theorem pathLess_asymm (p q : Path) (h : pathLess p q = true) : pathLess q p = false := by
  cases hq : pathLess q p with
  | false => rfl
  | true =>
    have := pathLess_trans p q p h hq
    rw [pathLess_irrefl] at this
    exact absurd this (by simp)

/-- The comparison of keys is the lexicographic one: first the referenced path, then the
directory. -/
theorem keyLess_iff (a b : CounterKey) :
    keyLess a b = true ↔ pathLess a.1 b.1 = true ∨ (a.1 = b.1 ∧ pathLess a.2 b.2 = true) := by
  unfold keyLess
  simp only [Bool.or_eq_true, Bool.and_eq_true, Bool.not_eq_true']
  constructor
  · rintro (h | ⟨h1, h2⟩)
    · exact Or.inl h
    · by_cases he : a.1 = b.1
      · exact Or.inr ⟨he, h2⟩
      · rcases pathLess_total _ _ he with h3 | h3
        · exact Or.inl h3
        · rw [h1] at h3
          exact absurd h3 (by simp)
  · rintro (h | ⟨h1, h2⟩)
    · exact Or.inl h
    · exact Or.inr ⟨by rw [h1]; exact pathLess_irrefl _, h2⟩

theorem keyLess_irrefl (a : CounterKey) : keyLess a a = false := by
  cases h : keyLess a a with
  | false => rfl
  | true =>
    rcases (keyLess_iff a a).mp h with h1 | ⟨_, h1⟩ <;>
      · rw [pathLess_irrefl] at h1
        exact absurd h1 (by simp)

theorem keyLess_trans (a b c : CounterKey) (h1 : keyLess a b = true) (h2 : keyLess b c = true) :
    keyLess a c = true := by
  rw [keyLess_iff] at h1 h2 ⊢
  rcases h1 with h1 | ⟨e1, h1⟩
  · rcases h2 with h2 | ⟨e2, _⟩
    · exact Or.inl (pathLess_trans _ _ _ h1 h2)
    · exact Or.inl (by rw [← e2]; exact h1)
  · rcases h2 with h2 | ⟨e2, h2⟩
    · exact Or.inl (by rw [e1]; exact h2)
    · exact Or.inr ⟨e1.trans e2, pathLess_trans _ _ _ h1 h2⟩

theorem keyLess_total (a b : CounterKey) (h : a ≠ b) :
    keyLess a b = true ∨ keyLess b a = true := by
  rw [keyLess_iff, keyLess_iff]
  by_cases h1 : a.1 = b.1
  · have h2 : a.2 ≠ b.2 := fun e => h (Prod.ext h1 e)
    rcases pathLess_total _ _ h2 with h3 | h3
    · exact Or.inl (Or.inr ⟨h1, h3⟩)
    · exact Or.inr (Or.inr ⟨h1.symm, h3⟩)
  · rcases pathLess_total _ _ h1 with h3 | h3
    · exact Or.inl (Or.inl h3)
    · exact Or.inr (Or.inl h3)

theorem counterLess_iff (a b : CounterKey × Nat) :
    counterLess a b = true ↔ b.2 < a.2 ∨ (a.2 = b.2 ∧ keyLess a.1 b.1 = true) := by
  unfold counterLess
  by_cases h : a.2 = b.2
  · simp [h]
  · simp [h]

theorem counterLess_trans (a b c : CounterKey × Nat) (h1 : counterLess a b = true)
    (h2 : counterLess b c = true) : counterLess a c = true := by
  rw [counterLess_iff] at h1 h2 ⊢
  rcases h1 with h1 | ⟨e1, h1⟩
  · rcases h2 with h2 | ⟨e2, _⟩
    · exact Or.inl (by omega)
    · exact Or.inl (by omega)
  · rcases h2 with h2 | ⟨e2, h2⟩
    · exact Or.inl (by omega)
    · exact Or.inr ⟨e1.trans e2, keyLess_trans _ _ _ h1 h2⟩

theorem counterLess_total (a b : CounterKey × Nat) (h : a.1 ≠ b.1) :
    counterLess a b = true ∨ counterLess b a = true := by
  rw [counterLess_iff, counterLess_iff]
  by_cases h1 : a.2 = b.2
  · rcases keyLess_total _ _ h with h2 | h2
    · exact Or.inl (Or.inr ⟨h1, h2⟩)
    · exact Or.inr (Or.inr ⟨h1.symm, h2⟩)
  · rcases Nat.lt_or_gt_of_ne h1 with h2 | h2
    · exact Or.inr (Or.inl h2)
    · exact Or.inl (Or.inl h2)

theorem insertSorted_perm (x : CounterKey × Nat) :
    ∀ l : List (CounterKey × Nat), (∀ y ∈ l, x.1 ≠ y.1) → (insertSorted x l).Perm (x :: l) := by
  intro l
  induction l with
  | nil => intro _; exact List.Perm.refl _
  | cons y rest ih =>
    intro h
    unfold insertSorted
    by_cases h1 : counterLess x y = true
    · rw [if_pos h1]
    · rw [if_neg h1]
      have h2 : counterLess y x = true := by
        rcases counterLess_total x y (h y (by simp)) with h3 | h3
        · exact absurd h3 h1
        · exact h3
      rw [if_pos h2]
      exact ((ih (fun z hz => h z (by simp [hz]))).cons y).trans (List.Perm.swap x y rest)

theorem insertSorted_pairwise (x : CounterKey × Nat) :
    ∀ l : List (CounterKey × Nat), (∀ y ∈ l, x.1 ≠ y.1) →
      l.Pairwise (fun a b => counterLess a b = true) →
      (insertSorted x l).Pairwise (fun a b => counterLess a b = true) := by
  intro l
  induction l with
  | nil => intro _ _; simp [insertSorted]
  | cons y rest ih =>
    intro h hs
    have hrest : ∀ z ∈ rest, x.1 ≠ z.1 := fun z hz => h z (by simp [hz])
    rw [List.pairwise_cons] at hs
    unfold insertSorted
    by_cases h1 : counterLess x y = true
    · rw [if_pos h1, List.pairwise_cons]
      refine ⟨?_, List.pairwise_cons.mpr hs⟩
      intro z hz
      rcases List.mem_cons.mp hz with hz | hz
      · rw [hz]; exact h1
      · exact counterLess_trans _ _ _ h1 (hs.1 z hz)
    · rw [if_neg h1]
      have h2 : counterLess y x = true := by
        rcases counterLess_total x y (h y (by simp)) with h3 | h3
        · exact absurd h3 h1
        · exact h3
      rw [if_pos h2, List.pairwise_cons]
      refine ⟨?_, ih hrest hs.2⟩
      intro z hz
      rcases List.mem_cons.mp ((insertSorted_perm x rest hrest).mem_iff.mp hz) with hz | hz
      · rw [hz]; exact h2
      · exact hs.1 z hz

theorem foldl_insertSorted :
    ∀ (l acc : List (CounterKey × Nat)), ((acc ++ l).map Prod.fst).Nodup →
      acc.Pairwise (fun a b => counterLess a b = true) →
      (l.foldl (fun sorted e => insertSorted e sorted) acc).Perm (acc ++ l) ∧
        (l.foldl (fun sorted e => insertSorted e sorted) acc).Pairwise
          (fun a b => counterLess a b = true) := by
  intro l
  induction l with
  | nil => intro acc _ hs; simpa using hs
  | cons x rest ih =>
    intro acc hnd hs
    have hx : ∀ y ∈ acc, x.1 ≠ y.1 := by
      intro y hy e
      rw [List.map_append, List.map_cons, List.nodup_append] at hnd
      exact hnd.2.2 (List.mem_map_of_mem Prod.fst hy) (by simp [e])
    have hperm := insertSorted_perm x acc hx
    have hnd' : ((insertSorted x acc ++ rest).map Prod.fst).Nodup := by
      have hp : (insertSorted x acc ++ rest).Perm (acc ++ x :: rest) :=
        (hperm.append_right rest).trans (by simpa using (List.perm_middle).symm)
      exact (hp.map Prod.fst).nodup_iff.mpr hnd
    obtain ⟨h1, h2⟩ := ih (insertSorted x acc) hnd' (insertSorted_pairwise x acc hx hs)
    refine ⟨?_, h2⟩
    rw [List.foldl_cons]
    exact h1.trans ((hperm.append_right rest).trans (by simpa using (List.perm_middle).symm))

theorem map_fst_addAt (k : CounterKey) (n : Nat) :
    ∀ c : IncludeCounter, (addAt k n c).map Prod.fst =
      if k ∈ c.map Prod.fst then c.map Prod.fst else c.map Prod.fst ++ [k] := by
  intro c
  induction c with
  | nil => simp [addAt]
  | cons e rest ih =>
    by_cases h : e.1 = k
    · simp [addAt, h]
    · have h' : ¬ k = e.1 := fun x => h x.symm
      by_cases hm : k ∈ rest.map Prod.fst
      · simp only [addAt, h, if_false, List.map_cons, ih, hm, if_true, List.mem_cons, h',
          false_or]
      · simp only [addAt, h, if_false, List.map_cons, ih, hm, List.mem_cons, h', false_or,
          List.cons_append]

theorem addAt_keys_nodup (k : CounterKey) (n : Nat) (c : IncludeCounter)
    (h : (c.map Prod.fst).Nodup) : ((addAt k n c).map Prod.fst).Nodup := by
  rw [map_fst_addAt]
  by_cases hm : k ∈ c.map Prod.fst
  · rw [if_pos hm]; exact h
  · rw [if_neg hm]
    exact List.Nodup.append h (List.nodup_singleton k) (by
      intro x hx hx'
      rw [List.mem_singleton] at hx'
      exact hm (hx' ▸ hx))

/-- Whatever property of the counter map `counter[key] += n` preserves, a returning invocation
preserves. -/
theorem printDependencyTree_counter_preserves (fs : FileSystem) (L : List Path)
    (P : IncludeCounter → Prop) (hP : ∀ k n c, P c → P (addAt k n c)) :
    ∀ (fuel : Nat) (src : Include) (cur : Path) (chain : List CounterKey) (depth : Nat)
      (st st' : Effects) (p : Path) (ch : List CounterKey) (t : CallTree),
      printDependencyTree fs L fuel src cur chain depth st =
        some (Outcome.returned p ch t st') →
      P st.includeCounter → P st'.includeCounter := by
  intro fuel
  induction fuel with
  | zero =>
    intro src cur chain depth st st' p ch t h
    simp [printDependencyTree] at h
  | succ fuel ih =>
    intro src cur chain depth st st' p ch t h hst
    obtain ⟨_, _, children, _, hcase⟩ := printDependencyTree_returned h
    rcases hcase with ⟨_, _, hst'⟩ | ⟨_, _, incs, _, hloop⟩
    · rw [hst']; exact hst
    · have hgen : ∀ (incs : List Include) (s s' : Effects) (ts : List CallTree),
          forIncludes
              (fun inc s =>
                printDependencyTree fs L fuel inc (p.join src.path).parentPath
                  ((src.path, p) :: chain) ((depth + 2) % depthModulus) s)
              incs s = some (LoopOutcome.done ts s') →
          P s.includeCounter → P s'.includeCounter := by
        intro incs
        induction incs with
        | nil =>
          intro s s' ts hl hs
          simp only [forIncludes, Option.some.injEq, LoopOutcome.done.injEq] at hl
          rw [← hl.2]; exact hs
        | cons inc more ihl =>
          intro s s' ts hl hs
          obtain ⟨q, c, u, s1, ts', h1, h2, _⟩ := forIncludes_cons_done hl
          exact ihl _ _ _ h2 (hP _ _ _ (ih _ _ _ _ _ _ _ _ _ h1 hs))
      exact hgen incs _ _ _ hloop hst

/-- The table of a completed run has one entry per key, as the `std::map` it stands for. -/
theorem printDependencyTreeMember_keys_nodup {fs : FileSystem} {self : Analyser}
    {L : List Path} {fuel : Nat} {trees : List CallTree} {st : Effects}
    {report : List (Path × Nat)}
    (h : printDependencyTreeMember fs self L fuel =
      some (RunOutcome.completed trees st report)) :
    (st.includeCounter.map Prod.fst).Nodup ∧ report = reportLines st.includeCounter := by
  unfold printDependencyTreeMember at h
  split at h
  · exact absurd h (by simp)
  · exact absurd h (by simp)
  · rename_i ts st1 hloop
    simp only [Option.some.injEq, RunOutcome.completed.injEq] at h
    obtain ⟨_, h2, h3⟩ := h
    subst h2
    refine ⟨?_, h3.symm⟩
    have hgen : ∀ (roots : List Include) (s s' : Effects) (ts : List CallTree),
        forSourceFiles fs self.path L fuel roots s = some (LoopOutcome.done ts s') →
        (s.includeCounter.map Prod.fst).Nodup → (s'.includeCounter.map Prod.fst).Nodup := by
      intro roots
      induction roots with
      | nil =>
        intro s s' ts hl hs
        simp only [forSourceFiles, Option.some.injEq, LoopOutcome.done.injEq] at hl
        rw [← hl.2]; exact hs
      | cons r more ihl =>
        intro s s' ts hl hs
        obtain ⟨q, c, u, s1, ts', h1, h2, _⟩ := forSourceFiles_cons_done hl
        exact ihl _ _ _ h2
          (printDependencyTree_counter_preserves fs L _ addAt_keys_nodup _ _ _ _ _ _ _ _ _ _ h1
            (addAt_keys_nodup _ _ _ hs))
    exact hgen _ _ _ _ hloop (by simp)

/-- C11: for every Edge Count Table (a map: one entry per key), the lines the Reporter prints
are the path and count of the entries of `sortedIncludeCounters`, which is a permutation of
the entries of the table (each entry once, none dropped or merged) in which every entry comes
before every later one by count descending and, among equal counts, by key ascending: first
by referenced path, then by resolved directory. -/
theorem report_is_sorted_permutation (counter : IncludeCounter)
    (hkeys : (counter.map Prod.fst).Nodup) :
    reportLines counter = (sortedCounters counter).map (fun e => (e.1.1, e.2)) ∧
    (sortedCounters counter).Perm counter ∧
    (sortedCounters counter).Pairwise
      (fun a b => b.2 < a.2 ∨
        (a.2 = b.2 ∧
          (pathLess a.1.1 b.1.1 = true ∨ (a.1.1 = b.1.1 ∧ pathLess a.1.2 b.1.2 = true)))) := by
  obtain ⟨h1, h2⟩ := foldl_insertSorted counter [] (by simpa using hkeys) List.Pairwise.nil
  refine ⟨rfl, by simpa [sortedCounters] using h1, ?_⟩
  refine List.Pairwise.imp ?_ h2
  intro a b hab
  rw [counterLess_iff, keyLess_iff] at hab
  exact hab

/-- C11 at a concrete input: the table of the run over `a.hpp`, `c.hpp` and `shared.hpp`. -/
theorem report_is_sorted_permutation_witness :
    (sharedEffects.includeCounter.map Prod.fst).Nodup ∧
    reportLines sharedEffects.includeCounter = sharedReport ∧
    (sortedCounters sharedEffects.includeCounter).Perm sharedEffects.includeCounter :=
  have h : (sharedEffects.includeCounter.map Prod.fst).Nodup := by decide
  ⟨h, by decide, (report_is_sorted_permutation sharedEffects.includeCounter h).2.1⟩

/-! ## Text Sanitizer -/

theorem startsWith_iff : ∀ (t l : List Char), startsWith t l = true ↔ l <+: t := by
  intro t l
  induction l generalizing t with
  | nil => simp [startsWith]
  | cons x xs ih =>
    cases t with
    | nil => simp [startsWith]
    | cons c cs =>
      simp only [startsWith, Bool.and_eq_true, beq_iff_eq, ih, List.cons_prefix_cons]
      constructor
      · rintro ⟨h1, h2⟩; exact ⟨h1.symm, h2⟩
      · rintro ⟨h1, h2⟩; exact ⟨h1.symm, h2⟩

theorem infix_of_infix_tail {l : List Char} {c : Char} {t : List Char} (h : l <:+: t) :
    l <:+: c :: t := by
  obtain ⟨a, b, hab⟩ := h
  exact ⟨c :: a, b, by simp [← hab]⟩

/-- A match of `noiseRegex` begins with `R"` or with `/*`. -/
theorem noiseMatch_start {t : List Char} {n : Nat} (h : noiseMatch t = some n) :
    ['R', dquote] <+: t ∨ ['/', '*'] <+: t := by
  unfold noiseMatch at h
  split at h
  · rename_i q rest
    by_cases hq : q = dquote
    · left
      rw [hq]
      exact ⟨rest, rfl⟩
    · simp [hq] at h
  · rename_i rest
    right
    exact ⟨rest, rfl⟩
  · exact absurd h (by simp)

/-- Text in which no match begins is copied: `pre` holds neither `/*` nor `R"`, also not
across its end into the first character of what follows. -/
theorem stripNoise_copy (rest : List Char) :
    ∀ pre : List Char, ¬ ['/', '*'] <:+: pre ++ rest.take 1 →
      ¬ ['R', dquote] <:+: pre ++ rest.take 1 →
      stripNoise (pre ++ rest) 0 = pre ++ stripNoise rest 0 := by
  intro pre
  induction pre with
  | nil => intro _ _; rfl
  | cons c pre' ih =>
    intro h1 h2
    have hnone : noiseMatch (c :: (pre' ++ rest)) = none := by
      cases hm : noiseMatch (c :: (pre' ++ rest)) with
      | none => rfl
      | some n =>
        exfalso
        have key : ∀ a b : Char, [a, b] <+: c :: (pre' ++ rest) →
            [a, b] <:+: (c :: pre') ++ rest.take 1 := by
          intro a b hp
          cases pre' with
          | nil =>
            cases rest with
            | nil =>
              obtain ⟨u, hu⟩ := hp
              simp at hu
            | cons r rs =>
              obtain ⟨u, hu⟩ := hp
              simp only [List.nil_append, List.cons_append, List.cons.injEq] at hu
              obtain ⟨ha, hb, _⟩ := hu
              subst ha hb
              exact ⟨[], [], by simp⟩
          | cons d pre'' =>
            obtain ⟨u, hu⟩ := hp
            simp only [List.cons_append, List.cons.injEq, List.nil_append] at hu
            obtain ⟨ha, hb, _⟩ := hu
            subst ha hb
            exact ⟨[], pre'' ++ rest.take 1, by simp⟩
        rcases noiseMatch_start hm with hs | hs
        · exact h2 (key _ _ hs)
        · exact h1 (key _ _ hs)
    have e : (c :: pre') ++ rest = c :: (pre' ++ rest) := rfl
    rw [e, stripNoise]
    simp only [hnone]
    rw [ih (fun h => h1 (infix_of_infix_tail h)) (fun h => h2 (infix_of_infix_tail h))]
    rfl

/-- The characters of a match still to pass are dropped. -/
theorem stripNoise_skip (b : List Char) :
    ∀ a : List Char, stripNoise (a ++ b) a.length = stripNoise b 0 := by
  intro a
  induction a with
  | nil => rfl
  | cons c cs ih => simpa [stripNoise] using ih

theorem blockClose_none :
    ∀ rest : List Char, ¬ ['*', '/'] <:+: rest → blockClose rest = none := by
  intro rest
  induction rest with
  | nil => intro _; rfl
  | cons c cs ih =>
    intro h
    have hs : startsWith (c :: cs) ['*', '/'] = false := by
      cases hsw : startsWith (c :: cs) ['*', '/'] with
      | false => rfl
      | true => exact absurd ((startsWith_iff _ _).mp hsw).isInfix h
    simp only [blockClose, hs, Bool.false_eq_true, if_false,
      ih (fun hc => h (infix_of_infix_tail hc)), Option.map_none']

theorem blockClose_terminated (post : List Char) :
    ∀ body : List Char, ¬ ['*', '/'] <:+: body →
      blockClose (body ++ '*' :: '/' :: post) = some (body.length + 2) := by
  intro body
  induction body with
  | nil => intro _; simp [blockClose, startsWith]
  | cons c cs ih =>
    intro h
    have hs : startsWith (c :: (cs ++ '*' :: '/' :: post)) ['*', '/'] = false := by
      cases hsw : startsWith (c :: (cs ++ '*' :: '/' :: post)) ['*', '/'] with
      | false => rfl
      | true =>
        exfalso
        obtain ⟨u, hu⟩ := (startsWith_iff _ _).mp hsw
        cases cs with
        | nil =>
          simp only [List.cons_append, List.nil_append, List.cons.injEq] at hu
          exact absurd hu.2.1 (by decide)
        | cons d ds =>
          simp only [List.cons_append, List.nil_append, List.cons.injEq] at hu
          obtain ⟨hc, hd, _⟩ := hu
          subst hc hd
          exact h ⟨[], ds, by simp⟩
    have e : (c :: cs) ++ '*' :: '/' :: post = c :: (cs ++ '*' :: '/' :: post) := rfl
    rw [e, blockClose, hs]
    simp only [Bool.false_eq_true, if_false, ih (fun hc => h (infix_of_infix_tail hc)),
      Option.map_some', List.length_cons]

theorem not_infix_append_singleton {a b x : Char} {pre : List Char} (h : ¬ [a, b] <:+: pre)
    (hx : x ≠ b) : ¬ [a, b] <:+: pre ++ [x] := by
  rintro ⟨u, v, huv⟩
  rcases List.eq_nil_or_concat v with hv | ⟨v', y, hv⟩
  · subst hv
    have h1 : (u ++ [a]) ++ [b] = pre ++ [x] := by simpa using huv
    have h2 := List.append_inj' h1 rfl
    simp only [List.cons.injEq, and_true] at h2
    exact hx h2.2.symm
  · subst hv
    have h1 : (u ++ [a, b] ++ v') ++ [y] = pre ++ [x] := by simpa using huv
    have h2 := List.append_inj' h1 rfl
    exact h ⟨u, v', h2.1⟩

theorem stripNoise_at_block_comment (body post : List Char) (h : ¬ ['*', '/'] <:+: body) :
    stripNoise ('/' :: '*' :: (body ++ '*' :: '/' :: post)) 0 = stripNoise post 0 := by
  have hm : noiseMatch ('/' :: '*' :: (body ++ '*' :: '/' :: post)) =
      some (2 + (body.length + 2)) := by
    simp only [noiseMatch, blockClose_terminated post body h]
  rw [stripNoise]
  simp only [hm]
  have e : '*' :: (body ++ '*' :: '/' :: post) = ('*' :: (body ++ ['*', '/'])) ++ post := by
    simp
  have hl : 2 + (body.length + 2) - 1 = ('*' :: (body ++ ['*', '/'])).length := by
    simp only [List.length_cons, List.length_append, List.length_nil]
    omega
  rw [e, hl, stripNoise_skip]

theorem stripNoise_at_open_block_comment (rest : List Char) (h : ¬ ['*', '/'] <:+: rest) :
    stripNoise ('/' :: '*' :: rest) 0 = [] := by
  have hm : noiseMatch ('/' :: '*' :: rest) = some ('/' :: '*' :: rest).length := by
    simp only [noiseMatch, blockClose_none rest h]
  rw [stripNoise]
  simp only [hm]
  have hl : ('/' :: '*' :: rest).length - 1 = ('*' :: rest).length := by simp
  have hskip := stripNoise_skip [] ('*' :: rest)
  rw [List.append_nil] at hskip
  rw [hl, hskip]
  rfl

theorem stripNoise_copy_before_comment (pre tail : List Char)
    (h1 : ¬ ['/', '*'] <:+: pre) (h2 : ¬ ['R', dquote] <:+: pre) :
    stripNoise (pre ++ '/' :: '*' :: tail) 0 = pre ++ stripNoise ('/' :: '*' :: tail) 0 := by
  have h1' : ¬ ['/', '*'] <:+: pre ++ List.take 1 ('/' :: '*' :: tail) :=
    not_infix_append_singleton h1 (by decide)
  have h2' : ¬ ['R', dquote] <:+: pre ++ List.take 1 ('/' :: '*' :: tail) :=
    not_infix_append_singleton h2 (by decide)
  exact stripNoise_copy _ pre h1' h2'

/-- C13: for every text `pre ++ "/*" ++ body ++ "*/" ++ post` in which `pre` contains neither
`/*` nor `R"` and `body` does not contain `*/`, the Text Sanitizer returns
`pre ++ sanitize(post)`; the references `getIncludes` returns are those found in that text, in
which `body` does not occur. The content `/* #include "ghost.hpp" */` yields no reference. -/
theorem block_comment_is_removed (pre body post : List Char)
    (h1 : ¬ ['/', '*'] <:+: pre) (h2 : ¬ ['R', dquote] <:+: pre)
    (h3 : ¬ ['*', '/'] <:+: body) :
    stripNoise (pre ++ '/' :: '*' :: (body ++ '*' :: '/' :: post)) 0 =
        pre ++ stripNoise post 0 ∧
      includesOfText (pre ++ '/' :: '*' :: (body ++ '*' :: '/' :: post)) =
        scanIncludes (pre ++ stripNoise post 0) true 0 ∧
      includesOfText "/* #include \"ghost.hpp\" */".data = [] := by
  have hs : stripNoise (pre ++ '/' :: '*' :: (body ++ '*' :: '/' :: post)) 0 =
      pre ++ stripNoise post 0 := by
    rw [stripNoise_copy_before_comment pre _ h1 h2, stripNoise_at_block_comment body post h3]
  refine ⟨hs, ?_, by decide⟩
  unfold includesOfText
  rw [hs]

/-- C13 at a concrete input: the comment of the ghost include between two lines of code. -/
theorem block_comment_is_removed_witness :
    stripNoise "int a;\n/* #include \"ghost.hpp\" */\n#include \"b.hpp\"\n".data 0 =
        "int a;\n\n#include \"b.hpp\"\n".data ∧
      includesOfText "int a;\n/* #include \"ghost.hpp\" */\n#include \"b.hpp\"\n".data =
        [Scenario.quoted ["b.hpp"]] :=
  have h := block_comment_is_removed "int a;\n".data " #include \"ghost.hpp\" ".data
    "\n#include \"b.hpp\"\n".data (by decide) (by decide) (by decide)
  ⟨h.1.trans (by decide), h.2.1.trans (by decide)⟩

/-- C17: for every text `pre ++ "/*" ++ rest` in which `pre` contains neither `/*` nor `R"` and
`rest` does not contain `*/`, the Text Sanitizer returns exactly `pre`: the unterminated block
comment is removed up to the end of the text. (The sanitizer is a total function: it has a
result on every text.) -/
theorem unterminated_block_comment_is_removed (pre rest : List Char)
    (h1 : ¬ ['/', '*'] <:+: pre) (h2 : ¬ ['R', dquote] <:+: pre)
    (h3 : ¬ ['*', '/'] <:+: rest) :
    stripNoise (pre ++ '/' :: '*' :: rest) 0 = pre := by
  rw [stripNoise_copy_before_comment pre _ h1 h2, stripNoise_at_open_block_comment rest h3,
    List.append_nil]

/-- C17 at a concrete input: a comment opened after an include and never closed. -/
theorem unterminated_block_comment_is_removed_witness :
    stripNoise "#include \"a.hpp\"\n/* open\n#include \"b.hpp\"\n".data 0 =
      "#include \"a.hpp\"\n".data :=
  unterminated_block_comment_is_removed "#include \"a.hpp\"\n".data
    " open\n#include \"b.hpp\"\n".data (by decide) (by decide) (by decide)

/-- C14 (failing input): the text `const char* s = R"x(a(b)x(a"⏎#include "ghost.hpp"⏎)x";`.
It has the form the claim describes: nothing before the `R"` opens a comment or a raw
literal, the delimiter is `x`, and the body `a(b)x(a"⏎#include "ghost.hpp"⏎` contains no
`)x"`. The pattern `R"(.*)\(` first takes `x(a` as delimiter, finds `)x(a"` on the first
line and removes only `R"x(a(b)x(a"`; the directive inside the body stays in the sanitized
text and is returned. -/
theorem raw_literal_body_include_is_returned :
    rawLiteralText =
        "const char* s = ".data ++ 'R' :: dquote :: ("x".data ++ '(' ::
          ("a(b)x(a\"\n#include \"ghost.hpp\"\n".data ++ ')' :: ("x".data ++ dquote ::
            ";\n".data))) ∧
      ¬ ['/', '*'] <:+: "const char* s = ".data ∧
      ¬ ['R', dquote] <:+: "const char* s = ".data ∧
      ¬ (')' :: ("x".data ++ [dquote])) <:+: "a(b)x(a\"\n#include \"ghost.hpp\"\n".data ∧
      stripNoise rawLiteralText 0 = "const char* s = \n#include \"ghost.hpp\"\n)x\";\n".data ∧
      includesOfText rawLiteralText = [quoted ["ghost.hpp"]] := by
  exact ⟨by decide, by decide, by decide, by decide, by decide, by decide⟩

/-- Text that contains neither `/*` nor `R"` is returned unchanged by the Text Sanitizer. -/
theorem stripNoise_of_no_opener (text : List Char) (h1 : ¬ ['/', '*'] <:+: text)
    (h2 : ¬ ['R', dquote] <:+: text) : stripNoise text 0 = text := by
  have h := stripNoise_copy [] text (by simpa using h1) (by simpa using h2)
  simpa [stripNoise] using h

/-- C15 (failing input): the text `log("ERROR", code(1));⏎#include "a.hpp"⏎`. It contains no
`/*`, and its only `R"` is followed by `, code(`: the characters before the parenthesis
include a space, so this is no raw string literal. The pattern `R"(.*)\(` matches there all
the same, finds no `), code"` and removes everything up to the end of the text: the
sanitized text is `log("ERRO` and the include of the second line is not extracted. -/
theorem plain_text_is_truncated :
    ¬ ['/', '*'] <:+: plainText ∧
      plainText = "log(\"ERRO".data ++ 'R' :: dquote :: (", code".data ++ '(' ::
        "1));\n#include \"a.hpp\"\n".data) ∧
      ' ' ∈ ", code".data ∧
      ¬ ['R', dquote] <:+: "log(\"ERRO".data ∧
      ¬ ['R', dquote] <:+: ", code(1));\n#include \"a.hpp\"\n".data ∧
      stripNoise plainText 0 = "log(\"ERRO".data ∧
      includesOfText plainText = [] ∧
      scanIncludes plainText true 0 = [quoted ["a.hpp"]] := by
  exact ⟨by decide, by decide, by decide, by decide, by decide, by decide, by decide, by decide⟩

/-! ## A file that cannot be opened -/

/-- C16: when the file of a node that is resolved and no cycle cannot be opened, the
invocation ends by the exception right after printing the node; the exception ends the loop
of every enclosing invocation (the remaining includes are not walked, whether the throwing
call comes first or after calls that returned) and that invocation itself, then the loop over
the roots (the remaining roots are not walked) and the member function, whose outcome carries
the state at the throw and no report lines. A run that completes has opened the file of every
resolved, non-cycle node of its trees. On the project where `/proj/shared.hpp` cannot be
opened, the run ends by the exception after two printed records, before roots `c.hpp` and
`shared.hpp`. -/
theorem unreadable_file_aborts_run :
    (∀ (fs : FileSystem) (L : List Path) (fuel : Nat) (src : Include) (cur : Path)
        (chain : List CounterKey) (depth : Nat) (st : Effects),
        (findIncludeParentPath fs src cur L).isEmpty = false →
        (src.path, findIncludeParentPath fs src cur L) ∉ chain →
        getIncludes fs ((findIncludeParentPath fs src cur L).join src.path) = none →
        printDependencyTree fs L (fuel + 1) src cur chain depth st =
          some (Outcome.thrown
            { st with
              output := st.output ++
                [recordOf src (findIncludeParentPath fs src cur L) false depth] })) ∧
    (∀ (call : Include → Effects → Option Outcome) (inc : Include) (more : List Include)
        (st s : Effects),
        call inc st = some (Outcome.thrown s) →
        forIncludes call (inc :: more) st = some (LoopOutcome.thrown s)) ∧
    (∀ (call : Include → Effects → Option Outcome) (inc : Include) (more : List Include)
        (st st1 s : Effects) (p : Path) (ch : List CounterKey) (t : CallTree),
        call inc st = some (Outcome.returned p ch t st1) →
        forIncludes call more
            { st1 with includeCounter := addAt (inc.path, p) 1 st1.includeCounter } =
          some (LoopOutcome.thrown s) →
        forIncludes call (inc :: more) st = some (LoopOutcome.thrown s)) ∧
    (∀ (fs : FileSystem) (L : List Path) (fuel : Nat) (src : Include) (cur : Path)
        (chain : List CounterKey) (depth : Nat) (st s : Effects) (incs : List Include),
        (findIncludeParentPath fs src cur L).isEmpty = false →
        (src.path, findIncludeParentPath fs src cur L) ∉ chain →
        getIncludes fs ((findIncludeParentPath fs src cur L).join src.path) = some incs →
        forIncludes
            (fun inc s' =>
              printDependencyTree fs L fuel inc
                ((findIncludeParentPath fs src cur L).join src.path).parentPath
                ((src.path, findIncludeParentPath fs src cur L) :: chain)
                ((depth + 2) % depthModulus) s')
            incs
            { st with
              output := st.output ++
                [recordOf src (findIncludeParentPath fs src cur L) false depth]
              opened := st.opened ++ [(findIncludeParentPath fs src cur L).join src.path] } =
          some (LoopOutcome.thrown s) →
        printDependencyTree fs L (fuel + 1) src cur chain depth st =
          some (Outcome.thrown s)) ∧
    (∀ (fs : FileSystem) (path : Path) (L : List Path) (fuel : Nat) (r : Include)
        (more : List Include) (st s : Effects),
        printDependencyTree fs L fuel r path [] 0
            { st with includeCounter := addAt (rootKey path r) 0 st.includeCounter } =
          some (Outcome.thrown s) →
        forSourceFiles fs path L fuel (r :: more) st = some (LoopOutcome.thrown s)) ∧
    (∀ (fs : FileSystem) (path : Path) (L : List Path) (fuel : Nat) (r : Include)
        (more : List Include) (st st1 s : Effects) (p : Path) (ch : List CounterKey)
        (t : CallTree),
        printDependencyTree fs L fuel r path [] 0
            { st with includeCounter := addAt (rootKey path r) 0 st.includeCounter } =
          some (Outcome.returned p ch t st1) →
        forSourceFiles fs path L fuel more st1 = some (LoopOutcome.thrown s) →
        forSourceFiles fs path L fuel (r :: more) st = some (LoopOutcome.thrown s)) ∧
    (∀ (fs : FileSystem) (self : Analyser) (L : List Path) (fuel : Nat) (s : Effects),
        forSourceFiles fs self.path L fuel self.sourceFiles ⟨[], [], []⟩ =
          some (LoopOutcome.thrown s) →
        printDependencyTreeMember fs self L fuel = some (RunOutcome.thrown s)) ∧
    (∀ (fs : FileSystem) (self : Analyser) (L : List Path) (fuel : Nat) (trees : List CallTree)
        (st : Effects) (report : List (Path × Nat)),
        printDependencyTreeMember fs self L fuel = some (RunOutcome.completed trees st report) →
        ∀ t ∈ trees, ∀ n ∈ t.nodes, n.parentPath.isEmpty = false → n.cycle = false →
          (getIncludes fs (n.parentPath.join n.sourceFile.path)).isSome = true) ∧
    printDependencyTreeMember lockedFileSystem (Analyser.create lockedFileSystem proj) [] 2 =
      some (RunOutcome.thrown lockedEffects) := by
  refine ⟨?_, ?_, ?_, ?_, ?_, ?_, ?_, ?_, by rfl⟩
  · intro fs L fuel src cur chain depth st he hc hg
    unfold printDependencyTree
    simp [he, hc, hg, recordOf]
  · intro call inc more st s h
    unfold forIncludes
    simp only [h]
  · intro call inc more st st1 s p ch t h1 h2
    unfold forIncludes
    simp only [h1, h2]
  · intro fs L fuel src cur chain depth st s incs he hc hg hl
    unfold printDependencyTree
    simp only [he, hc, hg, decide_False, Bool.not_false, Bool.and_self, if_true,
      Bool.false_eq_true, if_false]
    simp only [recordOf, he, Bool.not_false] at hl
    rw [hl]
  · intro fs path L fuel r more st s h
    unfold forSourceFiles
    simp only [rootKey] at h
    simp only [h]
  · intro fs path L fuel r more st st1 s p ch t h1 h2
    unfold forSourceFiles
    simp only [rootKey] at h1
    simp only [h1, h2]
  · intro fs self L fuel s h
    unfold printDependencyTreeMember
    simp only [h]
  · intro fs self L fuel trees st report h t ht n hn he hc
    unfold printDependencyTreeMember at h
    split at h
    · exact absurd h (by simp)
    · exact absurd h (by simp)
    · rename_i ts st1 hloop
      simp only [Option.some.injEq, RunOutcome.completed.injEq] at h
      obtain ⟨h1, _, _⟩ := h
      subst h1
      have hgen : ∀ (roots : List Include) (s s' : Effects) (ts : List CallTree),
          forSourceFiles fs self.path L fuel roots s = some (LoopOutcome.done ts s') →
          ∀ t ∈ ts, ∃ r s0 p ch s1,
            printDependencyTree fs L fuel r self.path [] 0 s0 =
              some (Outcome.returned p ch t s1) := by
        intro roots
        induction roots with
        | nil =>
          intro s s' ts hl t ht
          simp only [forSourceFiles, Option.some.injEq, LoopOutcome.done.injEq] at hl
          rw [← hl.1] at ht
          simp at ht
        | cons r more ihl =>
          intro s s' ts hl t ht
          obtain ⟨q, c, u, s1, ts', h1, h2, h3⟩ := forSourceFiles_cons_done hl
          subst h3
          rcases List.mem_cons.mp ht with ht | ht
          · subst ht
            exact ⟨r, _, q, c, s1, h1⟩
          · exact ihl _ _ _ h2 t ht
      obtain ⟨r, s0, p, ch, s1, hcall⟩ := hgen _ _ _ _ hloop t ht
      have hlaw := (printDependencyTree_children_law fs L fuel _ _ _ _ _ _ _ _ _ hcall n hn).2
        he hc
      rw [hlaw.1]
      rfl

/-- C16 at a concrete input: on the project where `/proj/shared.hpp` cannot be opened, the
walk of root `a.hpp` ends by the exception, and so do the loop over the roots and the run. -/
theorem unreadable_file_aborts_run_witness :
    printDependencyTree lockedFileSystem [] 2 (root ["proj", "a.hpp"]) proj [] 0
        { start with includeCounter := addAt (rootKey proj (root ["proj", "a.hpp"])) 0 [] } =
      some (Outcome.thrown lockedEffects) ∧
    forSourceFiles lockedFileSystem proj [] 2
        [root ["proj", "a.hpp"], root ["proj", "c.hpp"], root ["proj", "shared.hpp"]] start =
      some (LoopOutcome.thrown lockedEffects) :=
  have h : printDependencyTree lockedFileSystem [] 2 (root ["proj", "a.hpp"]) proj [] 0
        { start with includeCounter := addAt (rootKey proj (root ["proj", "a.hpp"])) 0 [] } =
      some (Outcome.thrown lockedEffects) := by rfl
  ⟨h, unreadable_file_aborts_run.2.2.2.2.1 lockedFileSystem proj [] 2 (root ["proj", "a.hpp"])
    [root ["proj", "c.hpp"], root ["proj", "shared.hpp"]] start lockedEffects h⟩

/-! ## Unresolved references and the empty path -/

theorem Path.eq_empty_of_isEmpty {p : Path} (h : p.isEmpty = true) : p = Path.empty := by
  obtain ⟨r, n⟩ := p
  cases r with
  | true => simp [Path.isEmpty] at h
  | false =>
    cases n with
    | nil => rfl
    | cons a as => simp [Path.isEmpty] at h

theorem searchIncludePaths_cases (fs : FileSystem) (sourcePath : Path) :
    ∀ L : List Path,
      (searchIncludePaths fs sourcePath L ∈ L ∧
          fs.isRegularFile ((searchIncludePaths fs sourcePath L).join sourcePath) = true) ∨
        (searchIncludePaths fs sourcePath L = Path.empty ∧
          ∀ s ∈ L, fs.isRegularFile (s.join sourcePath) = false) := by
  intro L
  induction L with
  | nil => right; exact ⟨rfl, by simp⟩
  | cons s more ih =>
    by_cases h : fs.isRegularFile (s.join sourcePath) = true
    · left
      simp [searchIncludePaths, h]
    · have hf : fs.isRegularFile (s.join sourcePath) = false := by simpa using h
      simp only [searchIncludePaths, hf, Bool.false_eq_true, if_false]
      rcases ih with ⟨h1, h2⟩ | ⟨h1, h2⟩
      · left; exact ⟨List.mem_cons_of_mem _ h1, h2⟩
      · right
        refine ⟨h1, ?_⟩
        intro t ht
        rcases List.mem_cons.mp ht with ht | ht
        · rw [ht]; exact hf
        · exact h2 t ht

/-- C18 (counterexample): the angled reference `<a.hpp>` walked from `/proj` on the project
that holds `/proj/a.hpp`, by a process running in `/proj`, with the search list that holds
only the empty path. The candidate directory, the empty path, contains the file as a regular
file, and still the walker prints the node as unresolved and does not expand it: the
resolver returns the candidate, and an empty result reads as unresolved. -/
theorem empty_search_directory_reads_unresolved :
    (fileSystem selfDisk).isRegularFile (Path.empty.join (⟨false, ["a.hpp"]⟩ : Path)) = true ∧
    findIncludeParentPath (fileSystem selfDisk) ⟨⟨false, ["a.hpp"]⟩, IncludeType.h_char⟩ proj
        [Path.empty] = Path.empty ∧
    printDependencyTree (fileSystem selfDisk) [Path.empty] 1
        ⟨⟨false, ["a.hpp"]⟩, IncludeType.h_char⟩ proj [] 2 start =
      some (Outcome.returned Path.empty [(⟨false, ["a.hpp"]⟩, Path.empty)]
        (CallTree.node ⟨⟨false, ["a.hpp"]⟩, IncludeType.h_char⟩ Path.empty false [])
        ⟨[], [⟨⟨false, ["a.hpp"]⟩, 2, false, false, none⟩], []⟩) := by
  exact ⟨by decide, by decide, by rfl⟩

/-- C18 (amended): for every reference, base directory and search-directory list in which no
candidate directory is the empty path (the directory of the including file for a quoted
reference, then the search directories), the resolver returns the empty path if and only if
no candidate contains the referenced file as a regular file. The walker prints the node as
unresolved and does not expand it (no file read, no child) exactly when the resolver returns
the empty path; otherwise it prints the node as resolved and, unless the node is a cycle,
reads the file and walks its includes. -/
theorem unresolved_iff_no_candidate (fs : FileSystem) (L : List Path) (fuel : Nat)
    (src : Include) (cur : Path) (chain : List CounterKey) (depth : Nat) (st : Effects)
    (hcur : src.type = IncludeType.q_char → cur.isEmpty = false)
    (hL : ∀ s ∈ L, s.isEmpty = false) :
    ((findIncludeParentPath fs src cur L).isEmpty = true ↔
        (src.type = IncludeType.q_char → fs.isRegularFile (cur.join src.path) = false) ∧
          ∀ s ∈ L, fs.isRegularFile (s.join src.path) = false) ∧
    ((findIncludeParentPath fs src cur L).isEmpty = true →
        printDependencyTree fs L (fuel + 1) src cur chain depth st =
          some (Outcome.returned Path.empty
            (if (src.path, Path.empty) ∈ chain then chain else (src.path, Path.empty) :: chain)
            (CallTree.node src Path.empty (decide ((src.path, Path.empty) ∈ chain)) [])
            { st with
              output := st.output ++
                [⟨src.path, depth, false, decide ((src.path, Path.empty) ∈ chain),
                  if src.path.isRelative then none else some Path.empty⟩] })) ∧
    ((findIncludeParentPath fs src cur L).isEmpty = false →
        (src.path, findIncludeParentPath fs src cur L) ∈ chain →
        printDependencyTree fs L (fuel + 1) src cur chain depth st =
          some (Outcome.returned (findIncludeParentPath fs src cur L) chain
            (CallTree.node src (findIncludeParentPath fs src cur L) true [])
            { st with
              output := st.output ++
                [⟨src.path, depth, true, true,
                  if src.path.isRelative then none
                  else some (findIncludeParentPath fs src cur L)⟩] })) ∧
    ((findIncludeParentPath fs src cur L).isEmpty = false →
        (src.path, findIncludeParentPath fs src cur L) ∉ chain →
        printDependencyTree fs L (fuel + 1) src cur chain depth st =
          match getIncludes fs ((findIncludeParentPath fs src cur L).join src.path) with
          | none =>
            some (Outcome.thrown
              { st with
                output := st.output ++
                  [⟨src.path, depth, true, false,
                    if src.path.isRelative then none
                    else some (findIncludeParentPath fs src cur L)⟩] })
          | some incs =>
            match forIncludes
                (fun inc s =>
                  printDependencyTree fs L fuel inc
                    ((findIncludeParentPath fs src cur L).join src.path).parentPath
                    ((src.path, findIncludeParentPath fs src cur L) :: chain)
                    ((depth + 2) % depthModulus) s)
                incs
                { st with
                  output := st.output ++
                    [⟨src.path, depth, true, false,
                      if src.path.isRelative then none
                      else some (findIncludeParentPath fs src cur L)⟩]
                  opened := st.opened ++
                    [(findIncludeParentPath fs src cur L).join src.path] } with
            | none => none
            | some (LoopOutcome.thrown st3) => some (Outcome.thrown st3)
            | some (LoopOutcome.done trees st3) =>
              some (Outcome.returned (findIncludeParentPath fs src cur L)
                ((src.path, findIncludeParentPath fs src cur L) :: chain)
                (CallTree.node src (findIncludeParentPath fs src cur L) false trees) st3)) := by
  refine ⟨?_, ?_, ?_, ?_⟩
  · constructor
    · intro he
      have hp := Path.eq_empty_of_isEmpty he
      unfold findIncludeParentPath at hp he
      by_cases hq : src.type = IncludeType.q_char ∧
          fs.isRegularFile (cur.join src.path) = true
      · rw [if_pos hq] at he
        rw [hcur hq.1] at he
        exact absurd he (by simp)
      · rw [if_neg hq] at hp he
        refine ⟨fun h1 => ?_, ?_⟩
        · cases hr : fs.isRegularFile (cur.join src.path) with
          | false => rfl
          | true => exact absurd ⟨h1, hr⟩ hq
        · rcases searchIncludePaths_cases fs src.path L with ⟨h1, _⟩ | ⟨_, h2⟩
          · rw [hL _ h1] at he
            exact absurd he (by simp)
          · exact h2
    · rintro ⟨h1, h2⟩
      rw [findIncludeParentPath_eq_empty h1 h2]
      rfl
  · intro he
    have hp := Path.eq_empty_of_isEmpty he
    unfold printDependencyTree
    simp [hp, Path.empty, Path.isEmpty]
  · intro he hc
    unfold printDependencyTree
    simp [he, hc]
  · intro he hc
    rw [printDependencyTree]
    simp only [he, hc, decide_False, Bool.not_false, Bool.and_self, if_true,
      Bool.false_eq_true, if_false]

/-- C18 (amended) at a concrete input: on the disk with `/proj/sub/b.hpp` and `/inc/b.hpp`,
from base directory `/proj/sub` with search list `[/inc]`, the quoted `"c.hpp"` has no
candidate that contains it and is printed as unresolved. -/
theorem unresolved_iff_no_candidate_witness :
    findIncludeParentPath (fileSystem nestedDisk) (quoted ["c.hpp"]) ⟨true, ["proj", "sub"]⟩
        [⟨true, ["inc"]⟩] = Path.empty ∧
    printDependencyTree (fileSystem nestedDisk) [⟨true, ["inc"]⟩] 1 (quoted ["c.hpp"])
        ⟨true, ["proj", "sub"]⟩ [] 2 start =
      some (Outcome.returned Path.empty [((quoted ["c.hpp"]).path, Path.empty)]
        (CallTree.node (quoted ["c.hpp"]) Path.empty false [])
        ⟨[], [⟨(quoted ["c.hpp"]).path, 2, false, false, none⟩], []⟩) :=
  have h := unresolved_iff_no_candidate (fileSystem nestedDisk) [⟨true, ["inc"]⟩] 0
    (quoted ["c.hpp"]) ⟨true, ["proj", "sub"]⟩ [] 2 start (fun _ => rfl) (by decide)
  have he : (findIncludeParentPath (fileSystem nestedDisk) (quoted ["c.hpp"])
      ⟨true, ["proj", "sub"]⟩ [⟨true, ["inc"]⟩]).isEmpty = true :=
    h.1.mpr ⟨fun _ => by decide, by decide⟩
  ⟨Path.eq_empty_of_isEmpty he, h.2.1 he⟩

/-! ## Directive Extractor -/

theorem takeWhile_append_stop (q : Char → Bool) (x : Char) (r : List Char) (hx : q x = false) :
    ∀ l : List Char, (l ++ x :: r).takeWhile q = l.takeWhile q := by
  intro l
  induction l with
  | nil => simp [List.takeWhile, hx]
  | cons c cs ih =>
    by_cases hc : q c = true
    · simp [List.takeWhile, hc, ih]
    · simp [List.takeWhile, hc]

theorem takeWhile_of_all (q : Char → Bool) (x : Char) (r : List Char) (hx : q x = false) :
    ∀ a : List Char, (∀ c ∈ a, q c = true) → (a ++ x :: r).takeWhile q = a := by
  intro a
  induction a with
  | nil => intro _; simp [List.takeWhile, hx]
  | cons c cs ih =>
    intro h
    have hc : q c = true := h c (by simp)
    simp [List.takeWhile, hc, ih (fun d hd => h d (by simp [hd]))]

theorem takeWhile_append_drop_length (q : Char → Bool) (l : List Char) :
    l.takeWhile q ++ l.drop (l.takeWhile q).length = l := by
  induction l with
  | nil => rfl
  | cons c cs ih =>
    by_cases hc : q c = true
    · simp [List.takeWhile, hc, ih]
    · simp [List.takeWhile, hc]

theorem length_takeWhile_le_length (q : Char → Bool) (l : List Char) :
    (l.takeWhile q).length ≤ l.length := by
  have h := congrArg List.length (takeWhile_append_drop_length q l)
  rw [List.length_append] at h
  omega

theorem mem_takeWhile_true (q : Char → Bool) :
    ∀ (l : List Char) (c : Char), c ∈ l.takeWhile q → q c = true := by
  intro l
  induction l with
  | nil => intro c h; simp at h
  | cons d ds ih =>
    intro c h
    by_cases hd : q d = true
    · simp only [List.takeWhile, hd, List.mem_cons] at h
      rcases h with h | h
      · rw [h]; exact hd
      · exact ih c h
    · simp [List.takeWhile, hd] at h

theorem startsWith_append_stop (x : Char) (r : List Char) :
    ∀ (lit a : List Char), x ∉ lit → startsWith (a ++ x :: r) lit = startsWith a lit := by
  intro lit
  induction lit with
  | nil => intro a _; cases a <;> rfl
  | cons y ys ih =>
    intro a hx
    have hxy : ¬ x = y := fun e => hx (by simp [e])
    cases a with
    | nil => simp [startsWith, hxy]
    | cons c cs =>
      have e : (c :: cs) ++ x :: r = c :: (cs ++ x :: r) := rfl
      rw [e, startsWith, startsWith, ih cs (fun h => hx (by simp [h]))]

theorem length_le_of_startsWith {a lit : List Char} (h : startsWith a lit = true) :
    lit.length ≤ a.length :=
  ((startsWith_iff a lit).mp h).length_le

theorem head?_append_stop {a : List Char} {x c : Char} {r : List Char} (hc : c ≠ x) :
    ((a ++ x :: r).head? = some c) ↔ (a.head? = some c) := by
  cases a with
  | nil =>
    simp only [List.nil_append, List.head?_cons, Option.some.injEq, List.head?_nil]
    constructor
    · intro h; exact absurd h.symm hc
    · intro h; exact absurd h (by simp)
  | cons d ds => simp

theorem matchName_append_stop (close x : Char) (r : List Char) (hx : isNameChar x = false)
    (hc : close ≠ x) (t : List Char) :
    matchName close (t ++ x :: r) = matchName close t := by
  unfold matchName
  simp only [takeWhile_append_stop isNameChar x r hx]
  rw [List.drop_append_of_le_length (length_takeWhile_le_length _ _)]
  by_cases h : ((List.drop (List.takeWhile isNameChar t).length t).head? = some close)
  · have h' := (head?_append_stop (r := r) hc).mpr h
    simp only [h, h', true_and]
  · have h' : ¬ ((List.drop (List.takeWhile isNameChar t).length t ++ x :: r).head? =
        some close) := fun e => h ((head?_append_stop hc).mp e)
    simp only [h, h', false_and, if_false]

theorem matchDirective_eq_staged (text : List Char) :
    matchDirective text = directiveStaged text := by
  unfold matchDirective directiveStaged
  dsimp only
  cases hd : text.drop (text.takeWhile isHSpace).length with
  | nil => rfl
  | cons c t1 =>
    by_cases hc : c = '#'
    · subst hc
      simp only [if_true, directiveWord]
      split
      · cases hd2 : List.drop (List.takeWhile isHSpace
            (List.drop 7 (List.drop (List.takeWhile isHSpace t1).length t1))).length
            (List.drop 7 (List.drop (List.takeWhile isHSpace t1).length t1)) with
        | nil => rfl
        | cons o t4 => rfl
      · rfl
    · simp only [hc, if_false]
      split
      · rename_i heq
        simp only [List.cons.injEq] at heq
        exact absurd heq.1 hc
      · rfl

theorem directiveName_append_stop (used : Nat) (r t : List Char) :
    directiveName used (t ++ lineFeed :: r) = directiveName used t := by
  cases t with
  | nil =>
    have h1 : ¬ lineFeed = dquote := by decide
    have h2 : ¬ lineFeed = '<' := by decide
    simp [directiveName, h1, h2]
  | cons o t4 =>
    simp only [List.cons_append, directiveName,
      matchName_append_stop dquote lineFeed r (by decide) (by decide),
      matchName_append_stop '>' lineFeed r (by decide) (by decide)]

theorem directiveWord_append_stop (used : Nat) (r t2 : List Char) :
    directiveWord used (t2 ++ lineFeed :: r) = directiveWord used t2 := by
  unfold directiveWord
  rw [startsWith_append_stop lineFeed r _ t2 (by decide)]
  by_cases h : startsWith t2 ['i', 'n', 'c', 'l', 'u', 'd', 'e'] = true
  · have hlen : 7 ≤ t2.length := length_le_of_startsWith h
    rw [if_pos h, if_pos h, List.drop_append_of_le_length hlen,
      takeWhile_append_stop isHSpace lineFeed r (by decide),
      List.drop_append_of_le_length (length_takeWhile_le_length _ _),
      directiveName_append_stop]
  · rw [if_neg h, if_neg h]

/-- What follows the line feed that ends a line plays no part in the match at its start. -/
theorem matchDirective_append_stop (r l : List Char) :
    matchDirective (l ++ lineFeed :: r) = matchDirective l := by
  rw [matchDirective_eq_staged, matchDirective_eq_staged]
  unfold directiveStaged
  rw [takeWhile_append_stop isHSpace lineFeed r (by decide),
    List.drop_append_of_le_length (length_takeWhile_le_length _ _)]
  cases hd : l.drop (l.takeWhile isHSpace).length with
  | nil =>
    have h1 : ¬ lineFeed = '#' := by decide
    simp [h1]
  | cons c t1 =>
    simp only [List.cons_append]
    by_cases hc : c = '#'
    · simp only [hc, if_true]
      rw [takeWhile_append_stop isHSpace lineFeed r (by decide),
        List.drop_append_of_le_length (length_takeWhile_le_length _ _),
        directiveWord_append_stop]
    · simp only [hc, if_false]

theorem matchName_length {close : Char} {t name : List Char} {n : Nat}
    (h : matchName close t = some (name, n)) : n ≤ t.length := by
  unfold matchName at h
  dsimp only at h
  split at h
  · rename_i hc
    simp only [Option.some.injEq, Prod.mk.injEq] at h
    have hsplit := congrArg List.length (takeWhile_append_drop_length isNameChar t)
    rw [List.length_append] at hsplit
    have hne : (t.drop (t.takeWhile isNameChar).length) ≠ [] := by
      intro e
      rw [e] at hc
      simp at hc
    have hpos := List.length_pos.mpr hne
    omega
  · exact absurd h (by simp)

theorem directiveName_bounds {used : Nat} {t : List Char} {inc : Include} {n : Nat}
    (h : directiveName used t = some (inc, n)) : used + 1 ≤ n ∧ n ≤ used + t.length := by
  cases t with
  | nil => simp [directiveName] at h
  | cons o t4 =>
    simp only [directiveName] at h
    by_cases h1 : o = dquote
    · rw [if_pos h1] at h
      cases hm : matchName dquote t4 with
      | none => simp [hm] at h
      | some m =>
        obtain ⟨name, k⟩ := m
        simp only [hm, Option.map_some', Option.some.injEq, Prod.mk.injEq] at h
        have := matchName_length hm
        simp only [List.length_cons]
        omega
    · rw [if_neg h1] at h
      by_cases h2 : o = '<'
      · rw [if_pos h2] at h
        cases hm : matchName '>' t4 with
        | none => simp [hm] at h
        | some m =>
          obtain ⟨name, k⟩ := m
          simp only [hm, Option.map_some', Option.some.injEq, Prod.mk.injEq] at h
          have := matchName_length hm
          simp only [List.length_cons]
          omega
      · rw [if_neg h2] at h
        exact absurd h (by simp)

theorem length_drop_takeWhile (q : Char → Bool) (l : List Char) :
    (l.takeWhile q).length + (l.drop (l.takeWhile q).length).length = l.length := by
  have h := congrArg List.length (takeWhile_append_drop_length q l)
  rw [List.length_append] at h
  exact h

theorem directiveWord_bounds {used : Nat} {t2 : List Char} {inc : Include} {n : Nat}
    (h : directiveWord used t2 = some (inc, n)) : used + 1 ≤ n ∧ n ≤ used + t2.length := by
  unfold directiveWord at h
  by_cases hs : startsWith t2 ['i', 'n', 'c', 'l', 'u', 'd', 'e'] = true
  · rw [if_pos hs] at h
    have hlen : 7 ≤ t2.length := length_le_of_startsWith hs
    have h1 := directiveName_bounds h
    have h2 := length_drop_takeWhile isHSpace (t2.drop 7)
    have h3 : (t2.drop 7).length = t2.length - 7 := List.length_drop 7 t2
    omega
  · rw [if_neg hs] at h
    exact absurd h (by simp)

/-- A match at the start of a line is not empty and stays within the line. -/
theorem matchDirective_length {l : List Char} {inc : Include} {n : Nat}
    (h : matchDirective l = some (inc, n)) : 1 ≤ n ∧ n ≤ l.length := by
  rw [matchDirective_eq_staged] at h
  unfold directiveStaged at h
  cases hd : l.drop (l.takeWhile isHSpace).length with
  | nil => simp [hd] at h
  | cons c t1 =>
    simp only [hd] at h
    by_cases hc : c = '#'
    · rw [if_pos hc] at h
      have h1 := directiveWord_bounds h
      have h2 := length_drop_takeWhile isHSpace l
      have h3 := length_drop_takeWhile isHSpace t1
      rw [hd, List.length_cons] at h2
      omega
    · rw [if_neg hc] at h
      exact absurd h (by simp)

theorem matchDirective_before_lines (l : List Char) (ls : List (List Char)) :
    matchDirective (l ++ afterLines ls) = matchDirective l := by
  cases ls with
  | nil => simp [afterLines]
  | cons m ms => exact matchDirective_append_stop _ l

theorem includeMatch_inside_line {c : Char} (cs : List Char) (hc : c ≠ lineFeed) :
    includeMatch false (c :: cs) = none := by
  have hc' : ¬ c = Char.ofNat 10 := hc
  simp [includeMatch, hc']

/-- After a match, or after a character that starts none, the rest of the line yields
nothing. -/
theorem scanIncludes_rest_of_line (rest : List Char) :
    ∀ (l : List Char), (∀ c ∈ l, c ≠ lineFeed) → ∀ skip, skip ≤ l.length →
      scanIncludes (l ++ rest) false skip = scanIncludes rest false 0 := by
  intro l
  induction l with
  | nil =>
    intro _ skip hs
    have : skip = 0 := by simpa using hs
    subst this
    rfl
  | cons c cs ih =>
    intro hl skip hs
    have hcs : ∀ d ∈ cs, d ≠ lineFeed := fun d hd => hl d (by simp [hd])
    cases skip with
    | zero =>
      have e : (c :: cs) ++ rest = c :: (cs ++ rest) := rfl
      rw [e, scanIncludes, includeMatch_inside_line _ (hl c (by simp))]
      exact ih hcs 0 (Nat.zero_le _)
    | succ k =>
      have e : (c :: cs) ++ rest = c :: (cs ++ rest) := rfl
      rw [e, scanIncludes]
      exact ih hcs k (by simpa using hs)

/-- From a line feed on, the scan yields the references of the lines that follow, in order. -/
theorem scanIncludes_afterLines :
    ∀ ls : List (List Char), (∀ m ∈ ls, ∀ c ∈ m, c ≠ lineFeed) →
      scanIncludes (afterLines ls) false 0 = ls.filterMap lineReference := by
  intro ls
  induction ls with
  | nil => intro _; rfl
  | cons l more ih =>
    intro h
    have hl : ∀ c ∈ l, c ≠ lineFeed := h l (by simp)
    have hmore := ih (fun m hm => h m (by simp [hm]))
    have hmatch : includeMatch false (lineFeed :: (l ++ afterLines more)) =
        (matchDirective l).map (fun m => (m.1, m.2 + 1)) := by
      have e : lineFeed = Char.ofNat 10 := rfl
      simp [includeMatch, matchDirective_before_lines, e]
    rw [afterLines, scanIncludes, hmatch]
    cases hm : matchDirective l with
    | none =>
      simp only [Option.map_none', List.filterMap_cons, lineReference, hm]
      rw [scanIncludes_rest_of_line _ l hl 0 (Nat.zero_le _)]
      exact hmore
    | some m =>
      obtain ⟨inc, n⟩ := m
      have hb := matchDirective_length hm
      simp only [Option.map_some', List.filterMap_cons, lineReference, hm,
        Nat.add_sub_cancel]
      rw [scanIncludes_rest_of_line _ l hl n hb.2, hmore]

/-- The scan of a text made of a first line and the lines after it yields the references of
these lines, in order. -/
theorem scanIncludes_lines (l : List Char) (ls : List (List Char))
    (h : ∀ m ∈ l :: ls, ∀ c ∈ m, c ≠ lineFeed) :
    scanIncludes (l ++ afterLines ls) true 0 = (l :: ls).filterMap lineReference := by
  have hls := scanIncludes_afterLines ls (fun m hm => h m (by simp [hm]))
  cases l with
  | nil =>
    have hnone : lineReference [] = none := by decide
    rw [List.filterMap_cons, hnone, List.nil_append]
    cases ls with
    | nil => rfl
    | cons m ms =>
      rw [← hls]
      have hstart : matchDirective (lineFeed :: (m ++ afterLines ms)) = none := by
        rw [matchDirective_eq_staged]
        have h1 : ¬ lineFeed = '#' := by decide
        have h2 : isHSpace lineFeed = false := by decide
        simp [directiveStaged, List.takeWhile, h1, h2]
      simp only [afterLines, scanIncludes, includeMatch, hstart, if_true, Bool.false_eq_true,
        if_false]
  | cons c cs =>
    have hl : ∀ d ∈ c :: cs, d ≠ lineFeed := h (c :: cs) (by simp)
    have hcs : ∀ d ∈ cs, d ≠ lineFeed := fun d hd => hl d (by simp [hd])
    have hc : ¬ c = Char.ofNat 10 := hl c (by simp)
    have e : (c :: cs) ++ afterLines ls = c :: (cs ++ afterLines ls) := rfl
    have hmd := matchDirective_before_lines (c :: cs) ls
    rw [e] at hmd
    rw [e, scanIncludes]
    cases hm : matchDirective (c :: cs) with
    | none =>
      simp only [includeMatch, if_true, hmd, hm, hc, if_false, List.filterMap_cons,
        lineReference]
      rw [scanIncludes_rest_of_line _ cs hcs 0 (Nat.zero_le _)]
      exact hls
    | some m =>
      obtain ⟨inc, n⟩ := m
      have hb := matchDirective_length hm
      simp only [includeMatch, if_true, hmd, hm, List.filterMap_cons, lineReference,
        Option.map_some']
      rw [scanIncludes_rest_of_line _ cs hcs (n - 1)
        (by simp only [List.length_cons] at hb; omega), hls]

/-- A text is its first line followed by its other lines, each behind a line feed, and no
line holds a line feed. -/
theorem splitLines_spec :
    ∀ text : List Char, ∃ l ls, splitLines text = l :: ls ∧ text = l ++ afterLines ls ∧
      ∀ m ∈ l :: ls, ∀ c ∈ m, c ≠ lineFeed := by
  intro text
  induction text with
  | nil => exact ⟨[], [], rfl, rfl, by simp⟩
  | cons c cs ih =>
    obtain ⟨l, ls, h1, h2, h3⟩ := ih
    by_cases hc : c = lineFeed
    · refine ⟨[], l :: ls, by simp [splitLines, hc, h1], ?_, ?_⟩
      · rw [hc, h2]
        rfl
      · intro m hm
        rcases List.mem_cons.mp hm with hm | hm
        · rw [hm]; simp
        · exact h3 m hm
    · refine ⟨c :: l, ls, by simp [splitLines, hc, h1], by rw [h2]; rfl, ?_⟩
      intro m hm
      rcases List.mem_cons.mp hm with hm | hm
      · rw [hm]
        intro d hd
        rcases List.mem_cons.mp hd with hd | hd
        · rw [hd]; exact hc
        · exact h3 l (by simp) d hd
      · exact h3 m (by simp [hm])

/-- The Directive Extractor returns the references of the lines of the text, in order. -/
theorem scanIncludes_eq_lines (text : List Char) :
    scanIncludes text true 0 = (splitLines text).filterMap lineReference := by
  obtain ⟨l, ls, h1, h2, h3⟩ := splitLines_spec text
  rw [h1]
  conv_lhs => rw [h2]
  exact scanIncludes_lines l ls h3

theorem drop_length_append (a b : List Char) : (a ++ b).drop a.length = b := by
  induction a with
  | nil => rfl
  | cons c cs ih => simp [ih]

theorem extension_chars {ext : List Char} (h : ext = ".hpp".data ∨ ext = ".cpp".data) :
    ext.length = 4 ∧ ∀ c ∈ ext, isNameChar c = true := by
  rcases h with h | h <;> subst h <;> exact ⟨rfl, by decide⟩

/-- What `matchName` accepts: a run of name characters that ends in `.hpp` or `.cpp`, has at
least one character before the extension, and is followed by the closing delimiter. -/
theorem matchName_iff (close : Char) (hclose : isNameChar close = false) (t name : List Char) :
    (matchName close t).map Prod.fst = some name ↔
      ∃ stem ext tail, t = (stem ++ ext) ++ close :: tail ∧ name = stem ++ ext ∧
        (∀ c ∈ stem, isNameChar c = true) ∧ stem ≠ [] ∧
        (ext = ".hpp".data ∨ ext = ".cpp".data) := by
  constructor
  · intro h
    unfold matchName at h
    dsimp only at h
    split at h
    · rename_i hc
      obtain ⟨hhead, hlen, hext⟩ := hc
      simp only [Option.map_some', Option.some.injEq] at h
      have hsplit := takeWhile_append_drop_length isNameChar t
      cases hd : t.drop (t.takeWhile isNameChar).length with
      | nil => rw [hd] at hhead; simp at hhead
      | cons d tail =>
        rw [hd] at hhead hsplit
        simp only [List.head?_cons, Option.some.injEq] at hhead
        subst hhead
        refine ⟨name.take (name.length - 4), name.drop (name.length - 4), tail, ?_, ?_, ?_, ?_,
          ?_⟩
        · rw [List.take_append_drop, ← h]
          exact hsplit.symm
        · exact (List.take_append_drop _ _).symm
        · intro c hc
          have hmem : c ∈ name := List.mem_of_mem_take hc
          rw [← h] at hmem
          exact mem_takeWhile_true isNameChar t c hmem
        · intro e
          have hl := congrArg List.length e
          rw [List.length_take, ← h] at hl
          simp only [List.length_nil] at hl
          omega
        · rw [← h]
          exact hext
    · simp at h
  · rintro ⟨stem, ext, tail, ht, hname, hstem, hne, hext⟩
    obtain ⟨hel, hec⟩ := extension_chars hext
    have hall : ∀ c ∈ stem ++ ext, isNameChar c = true := by
      intro c hc
      rcases List.mem_append.mp hc with hc | hc
      · exact hstem c hc
      · exact hec c hc
    have htw : t.takeWhile isNameChar = stem ++ ext := by
      rw [ht]
      exact takeWhile_of_all isNameChar close tail hclose _ hall
    have hdrop : t.drop (stem ++ ext).length = close :: tail := by
      rw [ht]
      exact drop_length_append _ _
    have hpos : 0 < stem.length := List.length_pos.mpr hne
    have hlen : (stem ++ ext).length - 4 = stem.length := by
      rw [List.length_append]
      omega
    unfold matchName
    dsimp only
    rw [htw, hdrop, hlen, drop_length_append, if_pos]
    · simp [hname]
    · refine ⟨rfl, ?_, hext⟩
      rw [List.length_append]
      omega

/-- What the last stage accepts: an opening delimiter, an accepted name, the matching
closing delimiter. -/
theorem directiveName_iff (used : Nat) (t : List Char) (inc : Include) :
    (directiveName used t).map Prod.fst = some inc ↔
      ∃ (stem ext tail : List Char) (quote : Bool),
        t = (if quote then dquote else '<') :: ((stem ++ ext) ++
          (if quote then dquote else '>') :: tail) ∧
        (∀ c ∈ stem, isNameChar c = true) ∧ stem ≠ [] ∧
        (ext = ".hpp".data ∨ ext = ".cpp".data) ∧
        inc = ⟨Path.ofChars (stem ++ ext),
          if quote then IncludeType.q_char else IncludeType.h_char⟩ := by
  have hq : isNameChar dquote = false := by decide
  have ha : isNameChar '>' = false := by decide
  constructor
  · intro h
    cases t with
    | nil => simp [directiveName] at h
    | cons o t4 =>
      simp only [directiveName] at h
      by_cases h1 : o = dquote
      · rw [if_pos h1] at h
        cases hm : matchName dquote t4 with
        | none => simp [hm] at h
        | some m =>
          simp only [hm, Option.map_some', Option.some.injEq] at h
          have hn : (matchName dquote t4).map Prod.fst = some m.1 := by rw [hm]; rfl
          obtain ⟨stem, ext, tail, ht, hname, hstem, hne, hext⟩ :=
            (matchName_iff dquote hq t4 m.1).mp hn
          exact ⟨stem, ext, tail, true, by simp [h1, ht], hstem, hne, hext,
            by simp [← h, hname]⟩
      · rw [if_neg h1] at h
        by_cases h2 : o = '<'
        · rw [if_pos h2] at h
          cases hm : matchName '>' t4 with
          | none => simp [hm] at h
          | some m =>
            simp only [hm, Option.map_some', Option.some.injEq] at h
            have hn : (matchName '>' t4).map Prod.fst = some m.1 := by rw [hm]; rfl
            obtain ⟨stem, ext, tail, ht, hname, hstem, hne, hext⟩ :=
              (matchName_iff '>' ha t4 m.1).mp hn
            exact ⟨stem, ext, tail, false, by simp [h2, ht], hstem, hne, hext,
              by simp [← h, hname]⟩
        · rw [if_neg h2] at h
          simp at h
  · rintro ⟨stem, ext, tail, quote, ht, hstem, hne, hext, hinc⟩
    cases quote with
    | true =>
      simp only [if_true] at ht hinc
      have hn := (matchName_iff dquote hq ((stem ++ ext) ++ dquote :: tail) (stem ++ ext)).mpr
        ⟨stem, ext, tail, rfl, rfl, hstem, hne, hext⟩
      cases hm : matchName dquote ((stem ++ ext) ++ dquote :: tail) with
      | none =>
        rw [hm] at hn
        exact absurd hn (by simp)
      | some m =>
        rw [hm] at hn
        simp only [Option.map_some', Option.some.injEq] at hn
        rw [ht, hinc]
        simp only [directiveName, if_true, hm, Option.map_some', hn]
    | false =>
      simp only [Bool.false_eq_true, if_false] at ht hinc
      have hn := (matchName_iff '>' ha ((stem ++ ext) ++ '>' :: tail) (stem ++ ext)).mpr
        ⟨stem, ext, tail, rfl, rfl, hstem, hne, hext⟩
      cases hm : matchName '>' ((stem ++ ext) ++ '>' :: tail) with
      | none =>
        rw [hm] at hn
        exact absurd hn (by simp)
      | some m =>
        rw [hm] at hn
        simp only [Option.map_some', Option.some.injEq] at hn
        have hlt : ¬ ('<' = dquote) := by decide
        rw [ht, hinc]
        simp only [directiveName, hlt, if_false, if_true, hm, Option.map_some', hn]

theorem directiveName_fst (u v : Nat) (t : List Char) :
    (directiveName u t).map Prod.fst = (directiveName v t).map Prod.fst := by
  cases t with
  | nil => rfl
  | cons o t4 =>
    simp only [directiveName]
    by_cases h1 : o = dquote
    · rw [if_pos h1, if_pos h1]
      cases matchName dquote t4 <;> rfl
    · rw [if_neg h1, if_neg h1]
      by_cases h2 : o = '<'
      · rw [if_pos h2, if_pos h2]
        cases matchName '>' t4 <;> rfl
      · rw [if_neg h2, if_neg h2]

theorem directiveWord_fst (u v : Nat) (t : List Char) :
    (directiveWord u t).map Prod.fst = (directiveWord v t).map Prod.fst := by
  unfold directiveWord
  by_cases h : startsWith t ['i', 'n', 'c', 'l', 'u', 'd', 'e'] = true
  · rw [if_pos h, if_pos h]
    exact directiveName_fst _ _ _
  · rw [if_neg h, if_neg h]

/-- What the middle stage accepts: the word `include`, horizontal white space, and what the
last stage accepts. -/
theorem directiveWord_iff (used : Nat) (t2 : List Char) (inc : Include) :
    (directiveWord used t2).map Prod.fst = some inc ↔
      ∃ s3 rest, t2 = "include".data ++ (s3 ++ rest) ∧ (∀ c ∈ s3, isHSpace c = true) ∧
        (directiveName 0 rest).map Prod.fst = some inc := by
  constructor
  · intro h
    unfold directiveWord at h
    by_cases hs : startsWith t2 ['i', 'n', 'c', 'l', 'u', 'd', 'e'] = true
    · rw [if_pos hs] at h
      have hp := (startsWith_iff _ _).mp hs
      have ht : "include".data ++ t2.drop 7 = t2 := List.prefix_iff_eq_append.mp hp
      refine ⟨(t2.drop 7).takeWhile isHSpace,
        (t2.drop 7).drop ((t2.drop 7).takeWhile isHSpace).length, ?_, ?_, ?_⟩
      · rw [takeWhile_append_drop_length]
        exact ht.symm
      · exact mem_takeWhile_true isHSpace _
      · rw [directiveName_fst 0, h]
    · rw [if_neg hs] at h
      simp at h
  · rintro ⟨s3, rest, ht, hs3, hn⟩
    obtain ⟨stem, ext, tail, quote, hrest, _, _, _, _⟩ := (directiveName_iff 0 rest inc).mp hn
    have hstop : isHSpace (if quote then dquote else '<') = false := by
      cases quote <;> decide
    have hsw : startsWith t2 ['i', 'n', 'c', 'l', 'u', 'd', 'e'] = true :=
      (startsWith_iff _ _).mpr ⟨s3 ++ rest, ht.symm⟩
    have hdrop : t2.drop 7 = s3 ++ rest := by
      rw [ht]
      exact drop_length_append "include".data _
    have htw : (s3 ++ rest).takeWhile isHSpace = s3 := by
      rw [hrest]
      exact takeWhile_of_all isHSpace _ _ hstop s3 hs3
    unfold directiveWord
    rw [if_pos hsw, hdrop, htw, drop_length_append, directiveName_fst _ 0, hn]

/-- What `includeRegex` accepts at the start of a line is a directive line in the words of the
specification (amended), and nothing else. -/
theorem lineReference_iff (line : List Char) (inc : Include) :
    lineReference line = some inc ↔ IsDirectiveLine line inc := by
  unfold lineReference IsDirectiveLine
  rw [matchDirective_eq_staged]
  constructor
  · intro h
    unfold directiveStaged at h
    cases hd : line.drop (line.takeWhile isHSpace).length with
    | nil => simp [hd] at h
    | cons c t1 =>
      simp only [hd] at h
      by_cases hc : c = '#'
      · rw [if_pos hc] at h
        obtain ⟨s3, rest, ht2, hs3, hn⟩ := (directiveWord_iff _ _ inc).mp h
        obtain ⟨stem, ext, tail, quote, hrest, hstem, hne, hext, hinc⟩ :=
          (directiveName_iff 0 rest inc).mp hn
        refine ⟨line.takeWhile isHSpace, t1.takeWhile isHSpace, s3, stem, ext, tail, quote,
          ?_, mem_takeWhile_true isHSpace _, mem_takeWhile_true isHSpace _, hs3, hstem, hne,
          hext, hinc⟩
        rw [← hrest, ← ht2, takeWhile_append_drop_length, ← hc, ← hd,
          takeWhile_append_drop_length]
      · rw [if_neg hc] at h
        simp at h
  · rintro ⟨s1, s2, s3, stem, ext, tail, quote, hline, hs1, hs2, hs3, hstem, hne, hext, hinc⟩
    have hn : (directiveName 0 ((if quote then dquote else '<') :: ((stem ++ ext) ++
        (if quote then dquote else '>') :: tail))).map Prod.fst = some inc :=
      (directiveName_iff 0 _ inc).mpr ⟨stem, ext, tail, quote, rfl, hstem, hne, hext, hinc⟩
    have hw := (directiveWord_iff 0 _ inc).mpr ⟨s3, _, rfl, hs3, hn⟩
    have h1 : line.takeWhile isHSpace = s1 := by
      rw [hline]
      exact takeWhile_of_all isHSpace '#' _ (by decide) s1 hs1
    have h2 : (s2 ++ ("include".data ++ (s3 ++ (if quote then dquote else '<') ::
        ((stem ++ ext) ++ (if quote then dquote else '>') :: tail)))).takeWhile isHSpace =
        s2 :=
      takeWhile_of_all isHSpace 'i' _ (by decide) s2 hs2
    unfold directiveStaged
    rw [h1]
    have hdrop : line.drop s1.length = '#' :: (s2 ++ ("include".data ++ (s3 ++
        (if quote then dquote else '<') :: ((stem ++ ext) ++
          (if quote then dquote else '>') :: tail)))) := by
      rw [hline]
      exact drop_length_append s1 _
    rw [hdrop]
    simp only [if_true]
    rw [h2, drop_length_append, directiveWord_fst _ 0, hw]

/-- C12 (counterexample): the one-line text `#include ".hpp"`. The line starts with `#`,
`include`, a blank and a quoted name; the name `.hpp` consists only of dots and word
characters and ends in `.hpp`. The Directive Extractor returns no reference for it: the
pattern `[\w.\/\\]+(\.hpp|\.cpp)` wants at least one character before the extension. -/
theorem bare_extension_name_is_skipped :
    "#include \".hpp\"".data =
        '#' :: ("include".data ++ (" ".data ++ dquote :: (".hpp".data ++ [dquote]))) ∧
      (∀ c ∈ ".hpp".data, isNameChar c = true) ∧
      ".hpp".data <:+ ".hpp".data ∧
      stripNoise "#include \".hpp\"".data 0 = "#include \".hpp\"".data ∧
      scanIncludes "#include \".hpp\"".data true 0 = [] ∧
      includesOfText "#include \".hpp\"".data = [] := by
  exact ⟨by decide, by decide, List.suffix_refl _, by decide, by decide, by decide⟩

/-- C12 (amended): for every sanitized text, the Directive Extractor returns, in order of
appearance, exactly one reference for each line (piece of the text between line feeds) that
starts with optional horizontal white space, `#`, optional horizontal white space, `include`,
optional horizontal white space and then a `"name"` or `<name>` whose name consists only of
word characters, dots, `/` and `\`, ends in `.hpp` or `.cpp` and has at least one character
before that extension; the reference carries that name and is quoted for the `"` form and
angled for the `<` form; no other line yields a reference. -/
theorem directives_are_the_directive_lines (text : List Char) :
    scanIncludes text true 0 = (splitLines text).filterMap lineReference ∧
      (∀ line inc, lineReference line = some inc ↔ IsDirectiveLine line inc) ∧
      (∃ l ls, splitLines text = l :: ls ∧ text = l ++ afterLines ls ∧
        ∀ m ∈ l :: ls, ∀ c ∈ m, c ≠ lineFeed) ∧
      includesOfText text = (splitLines (stripNoise text 0)).filterMap lineReference :=
  ⟨scanIncludes_eq_lines text, lineReference_iff, splitLines_spec text,
    scanIncludes_eq_lines (stripNoise text 0)⟩

/-- C12 (amended) at a concrete input: four lines, of which the first and the third are
directive lines; the second has its directive behind other text and the fourth has the bare
extension as name. -/
theorem directives_are_the_directive_lines_witness :
    splitLines Scenario.mixedText =
        ["  # include <sub/b.hpp> // x".data, "int y; #include \"no.hpp\"".data,
          "#include \"c.cpp\"".data, "#include \".hpp\"".data] ∧
      IsDirectiveLine "#include \"c.cpp\"".data (Scenario.quoted ["c.cpp"]) ∧
      scanIncludes Scenario.mixedText true 0 =
        [⟨⟨false, ["sub", "b.hpp"]⟩, IncludeType.h_char⟩, Scenario.quoted ["c.cpp"]] :=
  have h := directives_are_the_directive_lines Scenario.mixedText
  ⟨by decide, (h.2.1 _ _).mp (by decide), h.1.trans (by decide)⟩

end tdw
